import Mathlib

/-!
# Verification of the FluidFramework coordination core

Shallow embedding of the leaderless coordination layer:

* `SM`   — the `SummaryManager` lifecycle state machine
           (`src/packages/runtime/container-runtime/src/summaryManager.ts`);
* `AS`   — the `AgentScheduler` task-leasing operations
           (`src/packages/runtime/agent-scheduler/src/scheduler.ts`);
* `Conv` — a per-task multi-replica model of the scheduler's reactive
           handlers over the ordered consensus register, used to prove
           the convergence guarantee.

Asynchronous continuations (summarizer creation resolving or failing,
the running summarizer exiting) are modelled as explicit events, since the
system is single-threaded and event handlers run to completion.
-/

namespace SM

/-- Lifecycle states of `SummaryManager` (enum `SummaryManagerState`). -/
inductive State
  | Off
  | Starting
  | Running
  | Stopping
  | Disabled
deriving DecidableEq

/-- Stop reasons (type `StopReason` in summaryManager.ts). -/
inductive StopReason
  | parentNotConnected
  | parentShouldNotSummarize
  | disposed
deriving DecidableEq

/-- Result of `getShouldSummarizeState` (type `ShouldSummarizeState`). -/
inductive ShouldSummarize
  | yes (shouldStart : Bool)
  | no (stopReason : StopReason)
deriving DecidableEq

/-- Whether an asynchronous continuation of `start`/`run` is outstanding:
`creating` while the `createSummarizer` promise is pending (state `Starting`),
`running` while `summarizer.run` has not settled (`runningSummarizer` is set). -/
inductive Pend
  | idle
  | creating
  | running
deriving DecidableEq

/-- `defaultThrottleMaxDelayMs` in summaryManager.ts. -/
def defaultThrottleMaxDelayMs : Nat := 30 * 1000

/-- The mutable fields of `SummaryManager` relevant to its lifecycle, plus
bookkeeping for the outstanding asynchronous continuation (`pend`), whether
the initial grace-delay timer is still pending (`timerActive`), and a count
of container warnings raised (`warnings`). -/
structure Manager where
  connected : Bool
  clientId : Option String
  electedClientId : Option String
  disposed : Bool
  state : State
  summarizerCount : Nat
  summariesEnabled : Bool
  clientTypeIsSummarizer : Bool
  pend : Pend
  timerActive : Bool
  warnings : Nat
  latestClientId : Option String
deriving DecidableEq

/-- `getShouldSummarizeState()`: guards evaluated in source order. -/
def getShouldSummarizeState (m : Manager) : ShouldSummarize :=
  if !m.connected then .no .parentNotConnected
  else if m.clientId ≠ m.electedClientId then .no .parentShouldNotSummarize
  else if m.disposed then .no .disposed
  else if m.summarizerCount > 0 then .yes false
  else .yes true

/-- `stop(reason)`: transition to `Stopping` and signal the running summarizer;
if none is running, log an error and force-reset to `Off`. -/
def stopF (m : Manager) : Manager :=
  if m.pend = .running then { m with state := .Stopping }
  else { m with state := .Off }

/-- `start()`: lock into `Disabled` if summaries are disabled or this client is
itself a summarizer; otherwise enter `Starting`, raise a container warning when
the throttle delay has reached the ceiling, and kick off `createSummarizer`
(modelled by `pend := creating`; its resolution arrives as a later event).
`delayMs` is the value returned by `startThrottler.getDelay()`. -/
def startF (m : Manager) (delayMs : Nat) : Manager :=
  if !m.summariesEnabled then { m with state := .Disabled }
  else if m.clientTypeIsSummarizer then { m with state := .Disabled }
  else
    let m1 := { m with state := State.Starting }
    let m2 := if delayMs ≥ defaultThrottleMaxDelayMs
              then { m1 with warnings := m1.warnings + 1 }
              else m1
    { m2 with pend := Pend.creating }

/-- `run(summarizer)`: enter `Running`, record the running summarizer, then
immediately re-check `shouldSummarize` and stop if it no longer holds. -/
def runF (m : Manager) : Manager :=
  match getShouldSummarizeState { m with state := State.Running, pend := Pend.running } with
  | .no _ => stopF { m with state := State.Running, pend := Pend.running }
  | .yes _ => { m with state := State.Running, pend := Pend.running }

/-- `tryRestart()`: re-evaluate `shouldSummarize`/`shouldStart`; start again if
still applicable, else settle to `Off`. -/
def tryRestartF (m : Manager) (delayMs : Nat) : Manager :=
  match getShouldSummarizeState m with
  | .yes true => startF m delayMs
  | _ => { m with state := State.Off }

/-- The state dispatch of `refreshSummarizer()` (the elected-client update is
performed by the caller, see `step`). -/
def refreshF (m : Manager) (delayMs : Nat) : Manager :=
  match m.state with
  | .Off =>
    match getShouldSummarizeState m with
    | .yes true => startF m delayMs
    | _ => m
  | .Running =>
    match getShouldSummarizeState m with
    | .no _ => stopF m
    | _ => m
  | _ => m

/-- `setClientId` followed by the refresh performed by `updateConnected`. -/
def updateConnectedF (m : Manager) (connected : Bool) (cid : Option String)
    (delayMs : Nat) : Manager :=
  if m.connected = connected then m
  else
    refreshF
      { m with connected := connected, clientId := cid,
               latestClientId := (if cid.isSome then cid else m.latestClientId) }
      delayMs

/-- External events driving `SummaryManager`.  Each event carries the throttle
delay the environment would return should `start()` be reached from it. -/
inductive Ev
  | electedChange (newElected : Option String) (delayMs : Nat)
  | summarizerCountChange (newCount : Nat) (delayMs : Nat)
  | setConnected (cid : String) (delayMs : Nat)
  | setDisconnected (delayMs : Nat)
  | summarizerCreated
  | createFailed (delayMs : Nat)
  | summarizerExited (delayMs : Nat)
  | disposeCall

/-- One event handled to completion. The async continuations
(`summarizerCreated`, `createFailed`, `summarizerExited`) only exist while the
corresponding operation is outstanding. -/
def step (m : Manager) : Ev → Manager
  | .electedChange e d => refreshF { m with electedClientId := e } d
  | .summarizerCountChange c d =>
    let prev := m.summarizerCount > 0
    let m1 := { m with summarizerCount := c }
    if prev ≠ (c > 0) then refreshF m1 d else m1
  | .setConnected cid d => updateConnectedF m true (some cid) d
  | .setDisconnected d => updateConnectedF m false none d
  | .summarizerCreated => if m.pend = .creating then runF m else m
  | .createFailed d =>
    if m.pend = .creating then tryRestartF { m with pend := Pend.idle } d else m
  | .summarizerExited d =>
    if m.pend = .running then tryRestartF { m with pend := Pend.idle } d else m
  | .disposeCall => { m with timerActive := false, disposed := true }

/-- A sequence of events handled in order. -/
def run (m : Manager) (es : List Ev) : Manager := es.foldl step m

/-- `shouldSummarize` is reported true, for some `shouldStart` tag. -/
def isYes : ShouldSummarize → Bool
  | .yes _ => true
  | .no _ => false

/-- **C2.** `getShouldSummarizeState` reports `shouldSummarize = true` iff the
manager is connected, the local clientId equals the elected clientId, and the
manager is not disposed; otherwise the result is `false` tagged with exactly
one stop reason among `parentNotConnected`, `parentShouldNotSummarize`,
`disposed`. -/
theorem shouldSummarize_characterization (m : Manager) :
    (isYes (getShouldSummarizeState m) = true ↔
      (m.connected = true ∧ m.clientId = m.electedClientId ∧ m.disposed = false))
    ∧ (isYes (getShouldSummarizeState m) = false →
        ∃! r : StopReason, getShouldSummarizeState m = .no r) := by
  constructor
  · unfold getShouldSummarizeState isYes
    by_cases hc : m.connected
    · by_cases hid : m.clientId = m.electedClientId
      · by_cases hd : m.disposed
        · simp [hc, hid, hd]
        · by_cases hs : m.summarizerCount > 0 <;> simp [hc, hid, hd, hs]
      · simp [hc, hid]
    · simp [Bool.not_eq_true] at hc
      simp [hc]
  · intro hno
    unfold getShouldSummarizeState at hno ⊢
    by_cases hc : m.connected
    · by_cases hid : m.clientId = m.electedClientId
      · by_cases hd : m.disposed
        · refine ⟨.disposed, by simp [hc, hid, hd], ?_⟩
          intro r hr
          simp [hc, hid, hd] at hr
          exact hr.symm
        · by_cases hs : m.summarizerCount > 0 <;>
            simp [hc, hid, hd, hs, isYes] at hno
      · refine ⟨.parentShouldNotSummarize, by simp [hc, hid], ?_⟩
        intro r hr
        simp [hc, hid] at hr
        exact hr.symm
    · simp [Bool.not_eq_true] at hc
      refine ⟨.parentNotConnected, by simp [hc], ?_⟩
      intro r hr
      simp [hc] at hr
      exact hr.symm

/-- A disposed manager never reports `shouldSummarize = true`: the third guard
of `getShouldSummarizeState` (or an earlier one) always fires. -/
theorem shouldSummarize_no_of_disposed (m : Manager) (hd : m.disposed = true) :
    ∀ b, getShouldSummarizeState m ≠ .yes b := by
  intro b
  unfold getShouldSummarizeState
  by_cases hc : m.connected
  · by_cases hid : m.clientId = m.electedClientId
    · simp [hc, hid, hd]
    · simp [hc, hid]
  · simp [Bool.not_eq_true] at hc
    simp [hc]

/-- `refreshSummarizer` is the identity once the state is `Disabled`. -/
theorem refreshF_disabled_eq (m : Manager) (d : Nat) (h : m.state = .Disabled) :
    refreshF m d = m := by
  unfold refreshF
  rw [h]

/-- One step preserves `state = Disabled` (with no outstanding continuation):
`refreshSummarizer` returns immediately in the `Disabled` case, `dispose` does
not touch the state, and no async continuation exists. -/
theorem step_keeps_disabled (m : Manager) (e : Ev)
    (h : m.state = .Disabled) (hp : m.pend = .idle) :
    (step m e).state = .Disabled ∧ (step m e).pend = .idle := by
  obtain ⟨con, cid, ecid, disp, st, sc, se, cts, pe, ta, wa, lc⟩ := m
  change st = _ at h
  change pe = _ at hp
  subst h
  subst hp
  cases e <;>
    first
      | exact ⟨rfl, rfl⟩
      | (simp only [step, updateConnectedF]
         split <;> exact ⟨rfl, rfl⟩)

/-- **C3.** `Disabled` is absorbing: once the lifecycle state is `Disabled`
(necessarily with no outstanding summarizer-creation or run continuation,
since `start` never launches one when locking into `Disabled`), no sequence of
subsequent events — register/election refreshes, connect, disconnect, async
completions, or `dispose` — ever moves the state away from `Disabled`. -/
theorem sm_disabled_absorbing (m : Manager) (es : List Ev)
    (h : m.state = .Disabled) (hp : m.pend = .idle) :
    (run m es).state = .Disabled := by
  induction es generalizing m with
  | nil => exact h
  | cons e es ih =>
    have hstep := step_keeps_disabled m e h hp
    exact ih (step m e) hstep.1 hstep.2

/-- A concrete disabled manager, for the C3 witness. -/
def mDisabled : Manager :=
  { connected := true, clientId := some "c1", electedClientId := some "c1",
    disposed := false, state := .Disabled, summarizerCount := 0,
    summariesEnabled := true, clientTypeIsSummarizer := false,
    pend := .idle, timerActive := false, warnings := 0,
    latestClientId := some "c1" }

/-- Witness for C3 at a concrete disabled manager and a concrete event list. -/
theorem sm_disabled_absorbing_witness :
    mDisabled.state = .Disabled ∧ mDisabled.pend = .idle ∧
      (run mDisabled
        [.setDisconnected 0, .setConnected "c2" 0, .summarizerCreated,
         .electedChange (some "c2") 0, .disposeCall,
         .summarizerExited 0]).state = .Disabled :=
  ⟨rfl, rfl, sm_disabled_absorbing mDisabled _ rfl rfl⟩

/-- `refreshSummarizer` on a disposed manager not in `Running` is the
identity: the `Off` case sees `shouldSummarize` false and does not start. -/
theorem refreshF_disposed (m : Manager) (d : Nat) (hd : m.disposed = true)
    (hr : m.state ≠ .Running) :
    refreshF m d = m := by
  unfold refreshF
  match hs : m.state with
  | .Off =>
    show (match getShouldSummarizeState m with
          | ShouldSummarize.yes true => startF m d
          | _ => m) = m
    match hy : getShouldSummarizeState m with
    | .yes b => exact absurd hy (shouldSummarize_no_of_disposed m hd b)
    | .no r => rfl
  | .Running => exact absurd hs hr
  | .Starting => rfl
  | .Stopping => rfl
  | .Disabled => rfl

/-- `tryRestart` on a disposed manager settles to `Off`. -/
theorem tryRestartF_disposed (m : Manager) (d : Nat) (hd : m.disposed = true) :
    tryRestartF m d = { m with state := State.Off } := by
  unfold tryRestartF
  match hy : getShouldSummarizeState m with
  | .yes b => exact absurd hy (shouldSummarize_no_of_disposed m hd b)
  | .no r => rfl

/-- `run` on a disposed manager immediately stops the summarizer it recorded,
leaving the state at `Stopping` at the end of the step. -/
theorem runF_disposed (m : Manager) (hd : m.disposed = true) :
    runF m = { m with state := State.Stopping, pend := Pend.running } := by
  unfold runF
  match hy : getShouldSummarizeState { m with state := State.Running, pend := Pend.running } with
  | .yes b => exact absurd hy (shouldSummarize_no_of_disposed _ hd b)
  | .no r => rfl

/-- One step preserves "disposed and not in `Running`": every path that could
enter `Running` first consults `getShouldSummarizeState`, which reports a stop
reason once disposed, and `run` immediately stops the summarizer it started. -/
theorem step_disposed_not_running (m : Manager) (e : Ev)
    (hd : m.disposed = true) (hr : m.state ≠ .Running) :
    (step m e).disposed = true ∧ (step m e).state ≠ .Running := by
  cases e with
  | electedChange ne d =>
    simp only [step]
    rw [refreshF_disposed]
    · exact ⟨hd, hr⟩
    · exact hd
    · exact hr
  | summarizerCountChange c d =>
    simp only [step]
    split
    · rw [refreshF_disposed]
      · exact ⟨hd, hr⟩
      · exact hd
      · exact hr
    · exact ⟨hd, hr⟩
  | setConnected cid d =>
    simp only [step, updateConnectedF]
    split
    · exact ⟨hd, hr⟩
    · rw [refreshF_disposed]
      · exact ⟨hd, hr⟩
      · exact hd
      · exact hr
  | setDisconnected d =>
    simp only [step, updateConnectedF]
    split
    · exact ⟨hd, hr⟩
    · rw [refreshF_disposed]
      · exact ⟨hd, hr⟩
      · exact hd
      · exact hr
  | summarizerCreated =>
    simp only [step]
    split
    · rw [runF_disposed m hd]
      exact ⟨hd, by simp⟩
    · exact ⟨hd, hr⟩
  | createFailed d =>
    simp only [step]
    split
    · rw [tryRestartF_disposed]
      · exact ⟨hd, by simp⟩
      · exact hd
    · exact ⟨hd, hr⟩
  | summarizerExited d =>
    simp only [step]
    split
    · rw [tryRestartF_disposed]
      · exact ⟨hd, by simp⟩
      · exact hd
    · exact ⟨hd, hr⟩
  | disposeCall => exact ⟨rfl, hr⟩

/-- **C8.** Calling `dispose()` while the manager is `Starting` clears the
pending initial grace-delay timer, and no subsequent sequence of events ever
leaves the manager in the `Running` state: the summarizer-creation
continuation finds `shouldSummarize` false (reason `disposed`) and stops
within the same run-to-completion step, and no restart can start again. -/
theorem sm_dispose_while_starting (m : Manager) (es : List Ev)
    (h : m.state = .Starting) :
    (step m .disposeCall).timerActive = false ∧
      (run (step m .disposeCall) es).state ≠ .Running := by
  refine ⟨rfl, ?_⟩
  have hinv : ∀ (m1 : Manager), m1.disposed = true → m1.state ≠ .Running →
      ∀ es1 : List Ev, (run m1 es1).state ≠ .Running := by
    intro m1 hd1 hr1 es1
    induction es1 generalizing m1 with
    | nil => exact hr1
    | cons e es1 ih =>
      have hstep := step_disposed_not_running m1 e hd1 hr1
      exact ih (step m1 e) hstep.1 hstep.2
  exact hinv (step m .disposeCall) rfl (by rw [show (step m .disposeCall).state = m.state from rfl, h]; simp) es

/-- A concrete manager in `Starting` with the creation continuation pending,
for the C8 witness. -/
def mStarting : Manager :=
  { connected := true, clientId := some "c1", electedClientId := some "c1",
    disposed := false, state := .Starting, summarizerCount := 0,
    summariesEnabled := true, clientTypeIsSummarizer := false,
    pend := .creating, timerActive := true, warnings := 0,
    latestClientId := some "c1" }

/-- Witness for C8: dispose during `Starting`, then let the summarizer
creation resolve and exit; the state never reads `Running`. -/
theorem sm_dispose_while_starting_witness :
    mStarting.state = .Starting ∧
      (step mStarting .disposeCall).timerActive = false ∧
      (run (step mStarting .disposeCall)
        [.summarizerCreated, .summarizerExited 0]).state ≠ .Running :=
  ⟨rfl, (sm_dispose_while_starting mStarting [.summarizerCreated, .summarizerExited 0] rfl).1,
    (sm_dispose_while_starting mStarting [.summarizerCreated, .summarizerExited 0] rfl).2⟩

/-- **C9.** In `start()`, when the throttle-computed delay reaches or exceeds
`defaultThrottleMaxDelayMs` (and the summaries-enabled / not-summarizer-client
guards pass, so the attempt is not locked into `Disabled`), exactly one
non-fatal container warning is raised for the attempt, and the creation
attempt still proceeds: the state becomes `Starting` and the
`createSummarizer` continuation is launched; nothing is thrown. -/
theorem sm_throttle_ceiling_warns (m : Manager) (d : Nat)
    (hEn : m.summariesEnabled = true) (hTy : m.clientTypeIsSummarizer = false)
    (hd : defaultThrottleMaxDelayMs ≤ d) :
    (startF m d).warnings = m.warnings + 1 ∧
      (startF m d).state = .Starting ∧
      (startF m d).pend = .creating := by
  simp [startF, hEn, hTy, ge_iff_le, hd]

/-- A concrete manager about to start, for the C9 witness. -/
def mOff : Manager :=
  { connected := true, clientId := some "c1", electedClientId := some "c1",
    disposed := false, state := .Off, summarizerCount := 0,
    summariesEnabled := true, clientTypeIsSummarizer := false,
    pend := .idle, timerActive := true, warnings := 0,
    latestClientId := some "c1" }

/-- Witness for C9 at the exact throttle ceiling (30000 ms). -/
theorem sm_throttle_ceiling_warns_witness :
    (startF mOff 30000).warnings = mOff.warnings + 1 ∧
      (startF mOff 30000).state = .Starting ∧
      (startF mOff 30000).pend = .creating :=
  sm_throttle_ceiling_warns mOff 30000 rfl rfl (by decide)

end SM

namespace AS

/-- `AttachState` from container-definitions. -/
inductive AttachState
  | Detached
  | Attaching
  | Attached
deriving DecidableEq

/-- Collaborator state read by the scheduler: runtime attach/connection state,
the delta manager, the client details, and the quorum membership. -/
structure Env where
  attachState : AttachState
  connected : Bool
  deltaActive : Bool
  interactive : Bool
  runtimeClientId : Option String
  quorum : List String
deriving DecidableEq

/-- Stand-in for the module-level `UnattachedClientId` uuid constant. -/
def UnattachedClientId : String := "uuid-unattached"

/-- The private `clientId` getter: `UnattachedClientId` while detached, else
the runtime clientId (assert 0x117 demands it be present; `none` here means
that assert would fire on access). -/
def clientIdOf (env : Env) : Option String :=
  if env.attachState = .Detached then some UnattachedClientId
  else env.runtimeClientId

/-- `isActive()`: detached containers are active; otherwise the runtime must
be connected and the delta manager active. -/
def isActive (env : Env) : Bool :=
  if env.attachState = .Detached then true
  else if !env.connected then false
  else env.deltaActive

/-- The consensus register collection as an association list; a missing key
reads as undefined, a `none` value is the unclaimed (null) marker. -/
abbrev Reg := List (String × Option String)

/-- `getTaskClientId` = `consensusRegisterCollection.read`. -/
def readReg (reg : Reg) (k : String) : Option (Option String) :=
  (reg.find? (fun p => p.1 = k)).map (fun p => p.2)

/-- Errors thrown synchronously by scheduler operations: user errors
(`throw new Error(...)`) and assertion failures, with their assert codes. -/
inductive SchedErr
  | alreadyRegistered (taskId : String)
  | alreadyAttempted (taskId : String)
  | neverRegistered (taskId : String)
  | neverPicked (taskId : String)
  | assertFailed (code : Nat)
deriving DecidableEq

/-- Observable effects of an operation: issued register writes (`none` is the
unclaimed marker) and `lost` event emissions. -/
inductive Eff
  | write (key : String) (val : Option String)
  | lost (key : String)
deriving DecidableEq

/-- Local bookkeeping of the scheduler: `registeredTasks` (a set),
`locallyRunnableTasks` (task → worker, workers opaque numbers) and
`runningTasks`. -/
structure Sched where
  registeredTasks : List String
  locallyRunnableTasks : List (String × Nat)
  runningTasks : List String
deriving DecidableEq

/-- Result of one synchronous operation: the local state at return or throw
time, the effects issued before that point, and the thrown error if any. -/
structure OpResult where
  sched : Sched
  effs : List Eff
  err : Option SchedErr
deriving DecidableEq

/-- Membership in the `locallyRunnableTasks` map. -/
def hasTask (l : List (String × Nat)) (t : String) : Bool :=
  l.any (fun p => p.1 = t)

/-- `Set.add` on `registeredTasks`. -/
def addRegistered (l : List String) (t : String) : List String :=
  if l.contains t then l else l ++ [t]

/-- `register(...taskUrls)` (scheduler.ts lines 83-99, with `registerCore`):
a pure check loop throws on the first url already registered, mutating
nothing; otherwise every url joins `registeredTasks` and an unclaimed write is
issued for exactly those whose register entry is currently absent. -/
def register (reg : Reg) (s : Sched) (taskUrls : List String) : OpResult :=
  match taskUrls.find? (fun t => s.registeredTasks.contains t) with
  | some t => ⟨s, [], some (.alreadyRegistered t)⟩
  | none =>
    ⟨{ s with registeredTasks := taskUrls.foldl addRegistered s.registeredTasks },
     (taskUrls.filter (fun t => readReg reg t = none)).map (fun t => .write t none),
     none⟩

/-- `pick(taskId, worker)` (lines 101-123): duplicate check, record the
worker, assert the client is interactive (0x118), and if active and the
register entry is absent or unclaimed, write self as claimant (the `clientId`
getter asserts 0x117 when the runtime clientId is missing). -/
def pick (env : Env) (reg : Reg) (s : Sched) (taskId : String) (worker : Nat) :
    OpResult :=
  if hasTask s.locallyRunnableTasks taskId then
    ⟨s, [], some (.alreadyAttempted taskId)⟩
  else
    let s1 : Sched :=
      { s with locallyRunnableTasks := s.locallyRunnableTasks ++ [(taskId, worker)] }
    if !env.interactive then ⟨s1, [], some (.assertFailed 0x118)⟩
    else if isActive env then
      match readReg reg taskId with
      | none | some none =>
        match clientIdOf env with
        | none => ⟨s1, [], some (.assertFailed 0x117)⟩
        | some me => ⟨s1, [.write taskId (some me)], none⟩
      | some (some _) => ⟨s1, [], none⟩
    else ⟨s1, [], none⟩

/-- The check loop of `release` (lines 125-137), in source order per url: the
never-registered check, the activity assertion (0x119), and the
observed-owner check (whose `clientId` access asserts 0x117). -/
def releaseCheck (env : Env) (reg : Reg) (s : Sched) : List String → Option SchedErr
  | [] => none
  | t :: rest =>
    if !(hasTask s.locallyRunnableTasks t) then some (.neverRegistered t)
    else if !(isActive env) then some (.assertFailed 0x119)
    else
      match clientIdOf env with
      | none => some (.assertFailed 0x117)
      | some me =>
        if readReg reg t = some (some me) then releaseCheck env reg s rest
        else some (.neverPicked t)

/-- `release(...taskUrls)` (lines 125-139, with `releaseCore`): all checks run
before any mutation; on success each url leaves `locallyRunnableTasks` and an
unclaimed write is issued for it. -/
def release (env : Env) (reg : Reg) (s : Sched) (taskUrls : List String) : OpResult :=
  match releaseCheck env reg s taskUrls with
  | some e => ⟨s, [], some e⟩
  | none =>
    ⟨{ s with locallyRunnableTasks :=
         s.locallyRunnableTasks.filter (fun p => !(taskUrls.contains p.1)) },
     taskUrls.map (fun t => .write t none),
     none⟩

/-- JS truthiness of a register read (`undefined`, `null` and the empty
string are falsy). -/
def truthyClient : Option (Option String) → Bool
  | none => false
  | some none => false
  | some (some c) => !(c == "")

/-- `initializeCore()` (lines 324-349): claim every locally runnable task
whose register entry is falsy, and clear every entry owned by a client absent
from the quorum (claims are issued first, as in the source). The clientId
assert 0x117 can fire only if a claim write is issued. -/
def initializeCore (env : Env) (reg : Reg) (s : Sched) : List Eff × Option SchedErr :=
  let needClaim := s.locallyRunnableTasks.filter
      (fun p => !(truthyClient (readReg reg p.1)))
  let clearCandidates := reg.filter
      (fun p => truthyClient (some p.2) &&
        !(match p.2 with
          | some c => env.quorum.contains c
          | none => false))
  match clientIdOf env, needClaim with
  | none, _ :: _ => ([], some (.assertFailed 0x117))
  | none, [] => (clearCandidates.map (fun p => Eff.write p.1 none), none)
  | some me, claims =>
    (claims.map (fun p => Eff.write p.1 (some me))
      ++ clearCandidates.map (fun p => Eff.write p.1 none), none)

/-- `clearRunningTasks()` (lines 351-364): stash and empty `runningTasks`;
when still active, rerun `initializeCore` (issuing its register writes);
finally emit one `lost` notification per stashed task. -/
def clearRunningTasks (env : Env) (reg : Reg) (s : Sched) :
    Sched × List Eff × Option SchedErr :=
  let tasks := s.runningTasks
  let s1 : Sched := { s with runningTasks := [] }
  let core := if isActive env then initializeCore env reg s1 else ([], none)
  (s1, core.1 ++ tasks.map Eff.lost, core.2)

/-- The `disconnected` handler (lines 260-264): clear running tasks unless
the container is detached. `env` is the post-event environment, in which the
runtime is no longer connected. -/
def onDisconnected (env : Env) (reg : Reg) (s : Sched) :
    Sched × List Eff × Option SchedErr :=
  if env.attachState ≠ .Detached then clearRunningTasks env reg s else (s, [], none)

/-- The `waitAttached` continuation (lines 252-258) of a scheduler created
detached: clear running tasks once the container reaches attached. `env` is
the post-attach environment. -/
def onAttachedAfterDetach (env : Env) (reg : Reg) (s : Sched) :
    Sched × List Eff × Option SchedErr :=
  clearRunningTasks env reg s

/-- Membership after folding `Set.add` over a list of urls. -/
theorem mem_foldl_addRegistered (l : List String) (acc : List String) (t : String) :
    (t ∈ l.foldl addRegistered acc) ↔ (t ∈ acc ∨ t ∈ l) := by
  induction l generalizing acc with
  | nil => simp
  | cons x xs ih =>
    rw [List.foldl_cons, ih]
    unfold addRegistered
    by_cases hx : acc.contains x = true
    · rw [if_pos hx]
      have hxm : x ∈ acc := by simpa using hx
      constructor
      · rintro (h | h)
        · exact Or.inl h
        · exact Or.inr (List.mem_cons_of_mem x h)
      · rintro (h | h)
        · exact Or.inl h
        · rcases List.mem_cons.mp h with h | h
          · exact Or.inl (h ▸ hxm)
          · exact Or.inr h
    · rw [if_neg hx]
      simp only [List.mem_append, List.mem_singleton, List.mem_cons]
      tauto

/-- **C5.** `register(taskIds)` synchronously rejects when some id is already
in `registeredTasks` and then mutates nothing and issues no write; otherwise
it succeeds, every id joins `registeredTasks` (other local state unchanged),
and an unclaimed write is issued for exactly the ids whose register entry is
currently absent. -/
theorem register_spec (reg : Reg) (s : Sched) (taskUrls : List String) :
    ((∃ t ∈ taskUrls, t ∈ s.registeredTasks) →
      ((register reg s taskUrls).err.isSome = true ∧
        (register reg s taskUrls).sched = s ∧
        (register reg s taskUrls).effs = []))
    ∧ ((∀ t ∈ taskUrls, t ∉ s.registeredTasks) →
      ((register reg s taskUrls).err = none ∧
        (∀ t, (t ∈ (register reg s taskUrls).sched.registeredTasks) ↔
          (t ∈ s.registeredTasks ∨ t ∈ taskUrls)) ∧
        (register reg s taskUrls).sched.locallyRunnableTasks = s.locallyRunnableTasks ∧
        (register reg s taskUrls).sched.runningTasks = s.runningTasks ∧
        (register reg s taskUrls).effs =
          (taskUrls.filter (fun t => readReg reg t = none)).map (fun t => Eff.write t none))) := by
  constructor
  · rintro ⟨t, ht, hmem⟩
    match hfind : taskUrls.find? (fun t => s.registeredTasks.contains t) with
    | some t0 =>
      unfold register
      rw [hfind]
      exact ⟨rfl, rfl, rfl⟩
    | none =>
      have := List.find?_eq_none.mp hfind t ht
      exact absurd (by simpa using hmem) this
  · intro hall
    have hfind : taskUrls.find? (fun t => s.registeredTasks.contains t) = none := by
      refine List.find?_eq_none.mpr ?_
      intro x hx
      simpa using hall x hx
    unfold register
    rw [hfind]
    refine ⟨rfl, ?_, rfl, rfl, rfl⟩
    intro t
    exact mem_foldl_addRegistered taskUrls s.registeredTasks t

/-- A concrete environment and state for scheduler witnesses. -/
def envLive : Env :=
  { attachState := .Attached, connected := true, deltaActive := true,
    interactive := true, runtimeClientId := some "c1", quorum := ["c1"] }

/-- The empty local scheduler state. -/
def sEmpty : Sched := ⟨[], [], []⟩

/-- Witness for C5: registering `a` twice is rejected with no effect, and the
first registration writes the unclaimed marker for the absent entry. -/
theorem register_spec_witness :
    ((register [] sEmpty ["a"]).err = none ∧
      (register [] sEmpty ["a"]).effs = [Eff.write "a" none]) ∧
    ((register [] ⟨["a"], [], []⟩ ["a"]).err.isSome = true ∧
      (register [] ⟨["a"], [], []⟩ ["a"]).sched = ⟨["a"], [], []⟩ ∧
      (register [] ⟨["a"], [], []⟩ ["a"]).effs = []) := by
  have h1 := (register_spec [] sEmpty ["a"]).2 (by intro t ht; simp [sEmpty])
  have h2 := (register_spec [] ⟨["a"], [], []⟩ ["a"]).1 ⟨"a", by simp, by simp⟩
  exact ⟨⟨h1.1, by simpa using h1.2.2.2.2⟩, h2⟩

/-- **C10.** `pick` asserts the local client's interactive capability (0x118)
after recording the worker but before any register access: on a
non-interactive client every `pick` call throws and issues no register write;
when the task was not already attempted locally, the thrown error is exactly
the 0x118 assertion. -/
theorem pick_noninteractive (env : Env) (reg : Reg) (s : Sched) (taskId : String)
    (worker : Nat) (h : env.interactive = false) :
    (pick env reg s taskId worker).err.isSome = true ∧
    (pick env reg s taskId worker).effs = [] ∧
    (hasTask s.locallyRunnableTasks taskId = false →
      (pick env reg s taskId worker).err = some (.assertFailed 0x118)) := by
  by_cases ht : hasTask s.locallyRunnableTasks taskId = true
  · simp [pick, ht, h]
  · simp only [Bool.not_eq_true] at ht
    simp [pick, ht, h]

/-- A non-interactive (summarizer-like) client environment. -/
def envNonInteractive : Env :=
  { attachState := .Attached, connected := true, deltaActive := true,
    interactive := false, runtimeClientId := some "c1", quorum := ["c1"] }

/-- Witness for C10 on a concrete non-interactive client. -/
theorem pick_noninteractive_witness :
    (pick envNonInteractive [] sEmpty "task" 7).err = some (.assertFailed 0x118) ∧
    (pick envNonInteractive [] sEmpty "task" 7).effs = [] := by
  have h := pick_noninteractive envNonInteractive [] sEmpty "task" 7 rfl
  exact ⟨h.2.2 (by decide), h.2.1⟩

/-- A detached environment: no connection, yet `isActive()` reports true. -/
def envDetached : Env :=
  { attachState := .Detached, connected := false, deltaActive := false,
    interactive := true, runtimeClientId := none, quorum := [] }

/-- **C4 (counterexample).** The claim states that `pick` requires the replica
to be attached/connected with a live connection in order to write a claim. On
a detached container — not attached, not connected, delta manager inactive —
`pick` nevertheless succeeds and writes `UnattachedClientId` as claimant,
because `isActive()` deliberately reports detached containers as active. -/
theorem pick_detached_writes_counterexample :
    (pick envDetached [] sEmpty "t" 0).err = none ∧
    (pick envDetached [] sEmpty "t" 0).effs = [Eff.write "t" (some UnattachedClientId)] ∧
    envDetached.attachState = .Detached ∧
    envDetached.connected = false ∧
    envDetached.deltaActive = false := by
  refine ⟨?_, ?_, rfl, rfl, rfl⟩ <;> rfl

/-- **C4 (amended).** `pick(taskId, worker)` fails when the task was already
attempted locally (mutating nothing, issuing no write); a register write is
issued only when `isActive()` holds, where a replica is active when detached,
or when connected with an active delta manager; and when active, interactive,
and the register entry is absent or unclaimed, it writes the local clientId
as claimant. -/
theorem pick_spec (env : Env) (reg : Reg) (s : Sched) (taskId : String) (worker : Nat) :
    (hasTask s.locallyRunnableTasks taskId = true →
      ((pick env reg s taskId worker).err = some (.alreadyAttempted taskId) ∧
        (pick env reg s taskId worker).sched = s ∧
        (pick env reg s taskId worker).effs = []))
    ∧ ((pick env reg s taskId worker).effs ≠ [] → isActive env = true)
    ∧ (∀ me, hasTask s.locallyRunnableTasks taskId = false →
      env.interactive = true → isActive env = true → clientIdOf env = some me →
      (readReg reg taskId = none ∨ readReg reg taskId = some none) →
      ((pick env reg s taskId worker).err = none ∧
        (pick env reg s taskId worker).effs = [Eff.write taskId (some me)] ∧
        (pick env reg s taskId worker).sched.locallyRunnableTasks =
          s.locallyRunnableTasks ++ [(taskId, worker)])) := by
  refine ⟨?_, ?_, ?_⟩
  · intro ht
    simp [pick, ht]
  · intro hne
    by_cases ht : hasTask s.locallyRunnableTasks taskId = true
    · simp [pick, ht] at hne
    · simp only [Bool.not_eq_true] at ht
      by_cases hi : env.interactive = true
      · by_cases ha : isActive env = true
        · exact ha
        · simp only [Bool.not_eq_true] at ha
          simp [pick, ht, hi, ha] at hne
      · simp only [Bool.not_eq_true] at hi
        simp [pick, ht, hi] at hne
  · intro me ht hi ha hcid hread
    rcases hread with hread | hread <;>
      simp [pick, ht, hi, ha, hread, hcid]

/-- Witness for C4 (amended): a connected, active, interactive client picking
a fresh unclaimed task writes itself as claimant. -/
theorem pick_spec_witness :
    (pick envLive [("t", none)] sEmpty "t" 3).err = none ∧
    (pick envLive [("t", none)] sEmpty "t" 3).effs = [Eff.write "t" (some "c1")] ∧
    (pick envLive [("t", none)] sEmpty "t" 3).sched.locallyRunnableTasks = [("t", 3)] := by
  have h := (pick_spec envLive [("t", none)] sEmpty "t" 3).2.2 "c1"
    (by decide) rfl rfl rfl (Or.inr (by decide))
  exact ⟨h.1, h.2.1, h.2.2⟩

/-- If the `release` check loop passes, every given url is locally runnable,
the replica is active (when any url is given), and the replica observes its
own clientId as owner of every url. -/
theorem releaseCheck_none_sound (env : Env) (reg : Reg) (s : Sched) (l : List String)
    (h : releaseCheck env reg s l = none) :
    ∀ t ∈ l, hasTask s.locallyRunnableTasks t = true ∧
      isActive env = true ∧
      (∀ me, clientIdOf env = some me → readReg reg t = some (some me)) := by
  induction l with
  | nil => simp
  | cons x rest ih =>
    unfold releaseCheck at h
    by_cases h1 : hasTask s.locallyRunnableTasks x = true
    · rw [if_neg (by simp [h1])] at h
      by_cases h2 : isActive env = true
      · rw [if_neg (by simp [h2])] at h
        match hc : clientIdOf env with
        | none => rw [hc] at h; exact absurd h (by simp)
        | some me =>
          rw [hc] at h
          have h4 : (if readReg reg x = some (some me) then releaseCheck env reg s rest
              else some (SchedErr.neverPicked x)) = none := h
          by_cases h3 : readReg reg x = some (some me)
          · rw [if_pos h3] at h4
            intro t ht
            rcases List.mem_cons.mp ht with ht | ht
            · subst ht
              refine ⟨h1, h2, ?_⟩
              intro me2 hme2
              cases hme2
              exact h3
            · refine ⟨(ih h4 t ht).1, (ih h4 t ht).2.1, ?_⟩
              intro me2 hme2
              exact (ih h4 t ht).2.2 me2 (hc.trans hme2)
          · rw [if_neg h3] at h4
            exact absurd h4 (by simp)
      · rw [if_pos (by simp only [Bool.not_eq_true] at h2; simp [h2])] at h
        exact absurd h (by simp)
    · rw [if_pos (by simp only [Bool.not_eq_true] at h1; simp [h1])] at h
      exact absurd h (by simp)

/-- If some url fails the registration or observed-ownership requirement, the
check loop reports an error. -/
theorem releaseCheck_fails (env : Env) (reg : Reg) (s : Sched) (l : List String)
    (hbad : ∃ t ∈ l, hasTask s.locallyRunnableTasks t = false ∨
      (∀ me, clientIdOf env = some me → readReg reg t ≠ some (some me))) :
    (releaseCheck env reg s l).isSome = true := by
  match hchk : releaseCheck env reg s l with
  | some e => rfl
  | none =>
    obtain ⟨t, ht, hcase⟩ := hbad
    have hsound := releaseCheck_none_sound env reg s l hchk t ht
    rcases hcase with hcase | hcase
    · rw [hsound.1] at hcase
      cases hcase
    · match hc : clientIdOf env with
      | some me => exact absurd (hsound.2.2 me hc) (hcase me hc)
      | none =>
        exfalso
        cases l with
        | nil => exact absurd ht (by simp)
        | cons x rest =>
          have hx := releaseCheck_none_sound env reg s (x :: rest) hchk x (by simp)
          unfold releaseCheck at hchk
          rw [if_neg (by simp [hx.1]), if_neg (by simp [hx.2.1]), hc] at hchk
          exact absurd hchk (by simp)

/-- `hasTask` after filtering out released urls. -/
theorem hasTask_filter (l : List (String × Nat)) (urls : List String) (t : String) :
    hasTask (l.filter (fun p => !(urls.contains p.1))) t =
      (hasTask l t && !(urls.contains t)) := by
  induction l with
  | nil => simp [hasTask]
  | cons x rest ih =>
    by_cases hx : urls.contains x.1 = true
    · rw [List.filter_cons_of_neg (by simpa using hx)]
      rw [ih]
      by_cases hxt : x.1 = t
      · subst hxt
        rw [hx]
        simp [hasTask]
      · have hcons : hasTask (x :: rest) t = hasTask rest t := by
          simp [hasTask, hxt]
        rw [hcons]
    · rw [List.filter_cons_of_pos
        (by simp only [Bool.not_eq_true] at hx; simpa using hx)]
      by_cases hxt : x.1 = t
      · subst hxt
        simp only [Bool.not_eq_true] at hx
        have hxm : x.1 ∉ urls := by simpa using hx
        simp [hasTask, hxm]
      · simp only [hasTask, List.any_cons] at ih ⊢
        rw [show (decide (x.1 = t)) = false by simp [hxt]]
        simp only [Bool.false_or]
        exact ih

/-- **C6.** `release(taskIds)` fails without mutating local state or issuing
any write whenever a check fails, and in particular whenever some id is not
locally runnable or the caller does not observe its own clientId as the owner
of some id in the register; on success it issues the unclaimed write for each
id, removes each id from `locallyRunnableTasks`, and leaves the other local
sets unchanged. -/
theorem release_spec (env : Env) (reg : Reg) (s : Sched) (taskUrls : List String) :
    ((release env reg s taskUrls).err.isSome = true →
      ((release env reg s taskUrls).sched = s ∧ (release env reg s taskUrls).effs = []))
    ∧ ((∃ t ∈ taskUrls, hasTask s.locallyRunnableTasks t = false ∨
        (∀ me, clientIdOf env = some me → readReg reg t ≠ some (some me))) →
      (release env reg s taskUrls).err.isSome = true)
    ∧ ((release env reg s taskUrls).err = none →
      ((release env reg s taskUrls).effs = taskUrls.map (fun t => Eff.write t none) ∧
        (∀ t, hasTask (release env reg s taskUrls).sched.locallyRunnableTasks t =
          (hasTask s.locallyRunnableTasks t && !(taskUrls.contains t))) ∧
        (release env reg s taskUrls).sched.registeredTasks = s.registeredTasks ∧
        (release env reg s taskUrls).sched.runningTasks = s.runningTasks)) := by
  refine ⟨?_, ?_, ?_⟩
  · intro herr
    unfold release at herr ⊢
    match hchk : releaseCheck env reg s taskUrls with
    | some e => exact ⟨rfl, rfl⟩
    | none =>
      rw [hchk] at herr
      exact absurd herr (by simp)
  · intro hbad
    have hfails := releaseCheck_fails env reg s taskUrls hbad
    unfold release
    match hchk : releaseCheck env reg s taskUrls with
    | some e => rfl
    | none =>
      rw [hchk] at hfails
      exact absurd hfails (by simp)
  · intro hok
    unfold release at hok ⊢
    match hchk : releaseCheck env reg s taskUrls with
    | some e =>
      rw [hchk] at hok
      exact absurd hok (by simp)
    | none =>
      refine ⟨rfl, ?_, rfl, rfl⟩
      intro t
      exact hasTask_filter s.locallyRunnableTasks taskUrls t

/-- Witness for C6: a successful release of an owned task, and a failing
release of a task the caller does not own. -/
theorem release_spec_witness :
    ((release envLive [("t", some "c1")] ⟨[], [("t", 5)], []⟩ ["t"]).err = none ∧
      (release envLive [("t", some "c1")] ⟨[], [("t", 5)], []⟩ ["t"]).effs =
        [Eff.write "t" none] ∧
      hasTask (release envLive [("t", some "c1")] ⟨[], [("t", 5)], []⟩ ["t"]).sched.locallyRunnableTasks "t" = false) ∧
    ((release envLive [("t", some "c2")] ⟨[], [("t", 5)], []⟩ ["t"]).err.isSome = true ∧
      (release envLive [("t", some "c2")] ⟨[], [("t", 5)], []⟩ ["t"]).sched = ⟨[], [("t", 5)], []⟩ ∧
      (release envLive [("t", some "c2")] ⟨[], [("t", 5)], []⟩ ["t"]).effs = []) := by
  have hok := (release_spec envLive [("t", some "c1")] ⟨[], [("t", 5)], []⟩ ["t"]).2.2 (by decide)
  have hbad := (release_spec envLive [("t", some "c2")] ⟨[], [("t", 5)], []⟩ ["t"]).2.1
    ⟨"t", by simp, Or.inr (by decide)⟩
  have hmut := (release_spec envLive [("t", some "c2")] ⟨[], [("t", 5)], []⟩ ["t"]).1 hbad
  refine ⟨⟨by decide, hok.1, ?_⟩, hbad, hmut.1, hmut.2⟩
  rw [hok.2.1 "t"]
  decide

/-- A connected, active environment whose runtime clientId is `c1`. -/
def envConnected : Env :=
  { attachState := .Attached, connected := true, deltaActive := true,
    interactive := true, runtimeClientId := some "c1", quorum := ["c1"] }

/-- A scheduler state interested in task `t`, currently running nothing. -/
def sInterested : Sched := ⟨["t"], [("t", 0)], []⟩

/-- **C7 (counterexample).** The claim states that reaching attached after
having been detached clears running tasks *without writing to the shared
register*. When the container attaches while already connected and active,
`clearRunningTasks` calls `initializeCore`, which issues a claim write for the
locally runnable task `t` whose register entry is absent. -/
theorem attach_transition_writes_counterexample :
    (onAttachedAfterDetach envConnected [] sInterested).2.1 =
      [Eff.write "t" (some "c1")] ∧
    isActive envConnected = true := by
  exact ⟨rfl, rfl⟩

/-- **C7 (amended).** On the disconnected event while attached the replica is
inactive afterwards, and on reaching attached the same holds provided the
replica is not active: in those cases the handler empties `runningTasks`,
emits exactly one `lost` notification per previously running task, performs
no register write, and leaves `registeredTasks` and `locallyRunnableTasks`
unchanged. (When the replica is active after attaching, `initializeCore` runs
and issues reconciliation writes instead.) -/
theorem inactive_transition_spec (env : Env) (reg : Reg) (s : Sched) :
    ((env.attachState ≠ .Detached → env.connected = false →
      ((onDisconnected env reg s).1.runningTasks = [] ∧
        (onDisconnected env reg s).2.1 = s.runningTasks.map Eff.lost ∧
        (onDisconnected env reg s).1.registeredTasks = s.registeredTasks ∧
        (onDisconnected env reg s).1.locallyRunnableTasks = s.locallyRunnableTasks)))
    ∧ (isActive env = false →
      ((onAttachedAfterDetach env reg s).1.runningTasks = [] ∧
        (onAttachedAfterDetach env reg s).2.1 = s.runningTasks.map Eff.lost ∧
        (onAttachedAfterDetach env reg s).1.registeredTasks = s.registeredTasks ∧
        (onAttachedAfterDetach env reg s).1.locallyRunnableTasks = s.locallyRunnableTasks)) := by
  constructor
  · intro hatt hconn
    have hact : isActive env = false := by
      unfold isActive
      rw [if_neg hatt, hconn]
      simp
    unfold onDisconnected clearRunningTasks
    rw [if_pos hatt, hact]
    exact ⟨rfl, rfl, rfl, rfl⟩
  · intro hact
    unfold onAttachedAfterDetach clearRunningTasks
    rw [hact]
    exact ⟨rfl, rfl, rfl, rfl⟩

/-- A disconnected-but-attached environment. -/
def envDisconnected : Env :=
  { attachState := .Attached, connected := false, deltaActive := false,
    interactive := true, runtimeClientId := none, quorum := [] }

/-- Witness for C7 (amended): on disconnect with two running tasks, both are
dropped and `lost`, with no register write. -/
theorem inactive_transition_spec_witness :
    (onDisconnected envDisconnected [] ⟨["a"], [("a", 1), ("b", 2)], ["a", "b"]⟩).1.runningTasks = [] ∧
    (onDisconnected envDisconnected [] ⟨["a"], [("a", 1), ("b", 2)], ["a", "b"]⟩).2.1 =
      [Eff.lost "a", Eff.lost "b"] ∧
    (onDisconnected envDisconnected [] ⟨["a"], [("a", 1), ("b", 2)], ["a", "b"]⟩).1.locallyRunnableTasks =
      [("a", 1), ("b", 2)] := by
  have h := (inactive_transition_spec envDisconnected [] ⟨["a"], [("a", 1), ("b", 2)], ["a", "b"]⟩).1
    (by intro hcon; cases hcon) rfl
  exact ⟨h.1, h.2.1, h.2.2.2⟩

end AS

namespace Conv

/-!
Multi-replica model of the scheduler's reactive handlers for one fixed task,
over the shared consensus register. The register's acceptance rule is
modelled from the spec and the source comments on `onTaskReassigned`: writes
are delivered in log order and a write is accepted iff no other write on the
key was accepted after it was issued (first-accepted wins; a stale write that
is not contested still lands). Replicas are interactive clients; `interested`
is membership of the task in `locallyRunnableTasks`, and `active` replicas
are exactly the quorum members.
-/

/-- A replica of the scheduler, for one fixed task. -/
structure Replica where
  rid : Nat
  interested : Bool
  active : Bool
deriving DecidableEq

/-- The task's register entry: absent (never written), the unclaimed (null)
marker, or owned by a clientId. -/
inductive RVal
  | absent
  | unclaimed
  | owned (c : Nat)
deriving DecidableEq

/-- A pending register write: the writer, the proposed value (`none` writes
the unclaimed marker, `some c` claims for `c`), and the register version the
write was based on. -/
structure W where
  writer : Nat
  val : Option Nat
  bv : Nat
deriving DecidableEq

instance : Inhabited W := ⟨⟨0, none, 0⟩⟩

/-- Global configuration: the replicas, the accepted register value and its
version, and the pending writes (the log scheduler delivers them in any
order). -/
structure Config where
  repls : List Replica
  reg : RVal
  ver : Nat
  q : List W
deriving DecidableEq

/-- Membership of a live client in the quorum. -/
def inQuorum (rs : List Replica) (c : Nat) : Bool :=
  rs.any (fun r => r.rid = c && r.active)

/-- The register value stored by an accepted write. -/
def applyVal : Option Nat → RVal
  | none => .unclaimed
  | some c => .owned c

/-- Whether the register entry currently names a claimant (a truthy read). -/
def isOwned : RVal → Bool
  | .owned _ => true
  | _ => false

/-- The write issued by one replica's `atomicChanged` handler when value `v`
is accepted at version `nv` (scheduler.ts lines 233-240 and 282-304): an
active interested replica claims an unclaimed entry; every active replica
clears an entry owned by a client absent from the quorum; a claim for a
quorum member (the replica itself included) triggers no write; inactive
replicas do nothing. -/
def reactOne (rs : List Replica) (nv : Nat) (v : RVal) (r : Replica) : List W :=
  if !r.active then []
  else
    match v with
    | .owned c =>
      if c = r.rid then []
      else if inQuorum rs c then []
      else [⟨r.rid, none, nv⟩]
    | .unclaimed => if r.interested then [⟨r.rid, some r.rid, nv⟩] else []
    | .absent => []

/-- All reactions to an accepted value. -/
def react (rs : List Replica) (nv : Nat) (v : RVal) : List W :=
  rs.flatMap (reactOne rs nv v)

/-- One log step: the scheduler delivers the pending write at index
`k % q.length`; it is accepted iff based on the current version, updating the
register and enqueueing all `atomicChanged` reactions; otherwise it is
discarded as contested. -/
def logStep (cfg : Config) (k : Nat) : Config :=
  if cfg.q.isEmpty then cfg
  else
    let i := k % cfg.q.length
    let w := cfg.q.getD i default
    let rest := cfg.q.eraseIdx i
    if w.bv = cfg.ver then
      ⟨cfg.repls, applyVal w.val, cfg.ver + 1,
        rest ++ react cfg.repls (cfg.ver + 1) (applyVal w.val)⟩
    else { cfg with q := rest }

/-- Update every replica with the given id. -/
def setR (rs : List Replica) (c : Nat) (f : Replica → Replica) : List Replica :=
  rs.map (fun r => if r.rid = c then f r else r)

/-- The `initializeCore` scan of a replica that just became active
(lines 324-349): claim the task if interested and the entry is falsy, clear
it if owned by a client outside the quorum. -/
def initScan (cfg : Config) (r : Replica) : List W :=
  match cfg.reg with
  | .absent => if r.interested then [⟨r.rid, some r.rid, cfg.ver⟩] else []
  | .unclaimed => if r.interested then [⟨r.rid, some r.rid, cfg.ver⟩] else []
  | .owned c => if inQuorum cfg.repls c then [] else [⟨r.rid, none, cfg.ver⟩]

/-- `removeMember` reactions when client `gone` leaves (lines 207-228): each
remaining active replica claims (if interested) or clears every entry owned
by `gone`. -/
def removeScan (cfg : Config) (gone : Nat) : List W :=
  if cfg.reg = RVal.owned gone then
    cfg.repls.flatMap (fun i =>
      if i.active then
        (if i.interested then [⟨i.rid, some i.rid, cfg.ver⟩]
         else [⟨i.rid, none, cfg.ver⟩])
      else [])
  else []

/-- External events: connect (running `initializeCore`), disconnect (firing
`removeMember` at every remaining active replica), `pick`, `release`, and
delivery of one pending write by the log. -/
inductive Act
  | connect (c : Nat)
  | disconnect (c : Nat)
  | pickTask (c : Nat)
  | releaseTask (c : Nat)
  | deliver (k : Nat)

/-- A replica connects: it becomes active and runs its `initializeCore`
reconciliation scan. -/
def doConnect (cfg : Config) (c : Nat) : Config :=
  match (setR cfg.repls c (fun r => { r with active := true })).find?
      (fun r => r.rid = c) with
  | none => { cfg with repls := setR cfg.repls c (fun r => { r with active := true }) }
  | some r =>
    ⟨setR cfg.repls c (fun r => { r with active := true }), cfg.reg, cfg.ver,
      cfg.q ++ initScan ⟨setR cfg.repls c (fun r => { r with active := true }),
        cfg.reg, cfg.ver, cfg.q⟩ r⟩

/-- A replica disconnects: it leaves the quorum and every remaining active
replica runs the `removeMember` handler. Its pending writes stay in the log
(old ops can be resubmitted on reconnection, see lines 297-301). -/
def doDisconnect (cfg : Config) (c : Nat) : Config :=
  let rs := setR cfg.repls c (fun r => { r with active := false })
  { cfg with repls := rs, q := cfg.q ++ removeScan { cfg with repls := rs } c }

/-- `pick` by a replica: a no-op when already attempted (the duplicate throw);
otherwise the replica becomes interested and, when active and the entry is
absent or unclaimed, writes itself as claimant. -/
def doPick (cfg : Config) (c : Nat) : Config :=
  match cfg.repls.find? (fun r => r.rid = c) with
  | none => cfg
  | some r =>
    if r.interested then cfg
    else if r.active && !(isOwned cfg.reg) then
      ⟨setR cfg.repls c (fun x => { x with interested := true }), cfg.reg, cfg.ver,
        cfg.q ++ [⟨c, some c, cfg.ver⟩]⟩
    else
      { cfg with repls := setR cfg.repls c (fun x => { x with interested := true }) }

/-- `release` by a replica: succeeds only when the task is locally runnable,
the replica is active, and it observes itself as owner; it then drops
interest and writes the unclaimed marker. Otherwise the call throws and
changes nothing. -/
def doRelease (cfg : Config) (c : Nat) : Config :=
  match cfg.repls.find? (fun r => r.rid = c) with
  | none => cfg
  | some r =>
    if r.interested && r.active && (cfg.reg = RVal.owned c) then
      { cfg with
        repls := setR cfg.repls c (fun x => { x with interested := false }),
        q := cfg.q ++ [⟨c, none, cfg.ver⟩] }
    else cfg

/-- One event handled to completion. -/
def stepA (cfg : Config) : Act → Config
  | .connect c => doConnect cfg c
  | .disconnect c => doDisconnect cfg c
  | .pickTask c => doPick cfg c
  | .releaseTask c => doRelease cfg c
  | .deliver k => logStep cfg k

/-- A sequence of events handled in order. -/
def runA (cfg : Config) (as : List Act) : Config := as.foldl stepA cfg

/-- Initial configuration: the given clientIds, none connected or interested,
the register entry absent, no pending writes. -/
def startCfg (rids : List Nat) : Config :=
  ⟨rids.map (fun n => ⟨n, false, false⟩), .absent, 0, []⟩

/-- Some pending write is acceptable (based on the current version). -/
def Acc (cfg : Config) : Prop := ∃ w ∈ cfg.q, w.bv = cfg.ver

/-- Some replica is both active and interested. -/
def hasIA (cfg : Config) : Prop :=
  ∃ r ∈ cfg.repls, r.active = true ∧ r.interested = true

/-- Some replica is active. -/
def hasA (cfg : Config) : Prop := ∃ r ∈ cfg.repls, r.active = true

/-- Well-formedness of a pending write: it was issued at or before the
current version, and if still acceptable and a claim, it claims for its own
interested writer and does not re-claim the current owner (claim writes are
only issued for a falsy or dead-owned entry, and interest cannot drop while
the write stays acceptable, since `release` demands observed ownership). -/
def WOk (cfg : Config) (w : W) : Prop :=
  w.bv ≤ cfg.ver ∧
  (w.bv = cfg.ver → ∀ c, w.val = some c →
    (w.writer = c ∧ (∃ r ∈ cfg.repls, r.rid = c ∧ r.interested = true) ∧
      cfg.reg ≠ .owned c))

/-- Every replica holding the given clientId is interested. -/
def ownerInterested (rs : List Replica) (c : Nat) : Prop :=
  ∀ r ∈ rs, r.rid = c → r.interested = true

/-- Progress: an unclaimed or absent entry with an interested active replica
has an acceptable write pending; an owned entry has an interested owner or an
acceptable write pending; a dead-owned entry has an acceptable write pending
as soon as anyone is active. -/
def Prog (cfg : Config) : Prop :=
  match cfg.reg with
  | .owned c =>
    (ownerInterested cfg.repls c ∨ Acc cfg)
    ∧ (inQuorum cfg.repls c = false → hasA cfg → Acc cfg)
  | _ => hasIA cfg → Acc cfg

/-- The global invariant. -/
def Inv (cfg : Config) : Prop :=
  (cfg.repls.map (fun r => r.rid)).Nodup ∧ (∀ w ∈ cfg.q, WOk cfg w) ∧ Prog cfg

/-- An element of `eraseIdx` is an element of the list. -/
theorem mem_of_mem_eraseIdx {l : List W} {i : Nat} {w : W}
    (h : w ∈ l.eraseIdx i) : w ∈ l :=
  (List.eraseIdx_sublist l i).mem h

/-- Erasing a non-witness preserves an existential over the list. -/
theorem exists_mem_eraseIdx (l : List W) (i : Nat) (p : W → Prop)
    (hnp : ¬ p (l.getD i default)) (h : ∃ w ∈ l, p w) :
    ∃ w ∈ l.eraseIdx i, p w := by
  induction l generalizing i with
  | nil => simp at h
  | cons x xs ih =>
    match i with
    | 0 =>
      obtain ⟨w, hw, hpw⟩ := h
      rcases List.mem_cons.mp hw with hw | hw
      · subst hw
        exact absurd hpw (by simpa using hnp)
      · exact ⟨w, by simpa using hw, hpw⟩
    | i + 1 =>
      obtain ⟨w, hw, hpw⟩ := h
      rcases List.mem_cons.mp hw with hw | hw
      · subst hw
        exact ⟨w, by simp [List.eraseIdx], hpw⟩
      · have hnp2 : ¬ p (xs.getD i default) := by simpa [List.getD] using hnp
        obtain ⟨w2, hw2, hpw2⟩ := ih i hnp2 ⟨w, hw, hpw⟩
        exact ⟨w2, by simp [List.eraseIdx, hw2], hpw2⟩

/-- `getD` at an in-range index is a member. -/
theorem getD_mem {l : List W} {i : Nat} (h : i < l.length) :
    l.getD i default ∈ l := by
  rw [List.getD_eq_getElem l default h]
  exact List.getElem_mem h

/-- Characterization of reaction writes: all are based at the new version and
are either clears or claims by an active interested replica reacting to the
unclaimed marker. -/
theorem react_mem_char {rs : List Replica} {nv : Nat} {v : RVal} {w : W}
    (h : w ∈ react rs nv v) :
    w.bv = nv ∧ ((w.val = none ∧ ∃ c2, v = .owned c2 ∧ inQuorum rs c2 = false) ∨
      (∃ r ∈ rs, r.active = true ∧ r.interested = true ∧
        w.writer = r.rid ∧ w.val = some r.rid ∧ v = .unclaimed)) := by
  unfold react at h
  rw [List.mem_flatMap] at h
  obtain ⟨r, hr, hw⟩ := h
  unfold reactOne at hw
  by_cases ha : r.active = true
  · rw [if_neg (by simp [ha])] at hw
    match v with
    | .owned c =>
      have hw2 : w ∈ (if c = r.rid then ([] : List W)
          else if inQuorum rs c = true then []
          else [⟨r.rid, none, nv⟩]) := hw
      by_cases hc : c = r.rid
      · rw [if_pos hc] at hw2
        simp at hw2
      · rw [if_neg hc] at hw2
        by_cases hq : inQuorum rs c = true
        · rw [if_pos hq] at hw2
          simp at hw2
        · rw [if_neg hq] at hw2
          rcases List.mem_singleton.mp hw2 with rfl
          exact ⟨rfl, Or.inl ⟨rfl, c, rfl, by simpa using hq⟩⟩
    | .unclaimed =>
      have hw2 : w ∈ (if r.interested = true
          then [(⟨r.rid, some r.rid, nv⟩ : W)] else []) := hw
      by_cases hi : r.interested = true
      · rw [if_pos hi] at hw2
        rcases List.mem_singleton.mp hw2 with rfl
        exact ⟨rfl, Or.inr ⟨r, hr, ha, hi, rfl, rfl, rfl⟩⟩
      · rw [if_neg hi] at hw2
        simp at hw2
    | .absent =>
      have hw2 : w ∈ ([] : List W) := hw
      simp at hw2
  · rw [if_pos (by simp only [Bool.not_eq_true] at ha; simp [ha])] at hw
    simp at hw

/-- An active interested replica reacts to the unclaimed marker by claiming. -/
theorem mem_react_unclaimed {rs : List Replica} {nv : Nat} {r : Replica}
    (hr : r ∈ rs) (ha : r.active = true) (hi : r.interested = true) :
    (⟨r.rid, some r.rid, nv⟩ : W) ∈ react rs nv .unclaimed := by
  unfold react
  rw [List.mem_flatMap]
  refine ⟨r, hr, ?_⟩
  unfold reactOne
  rw [if_neg (by simp [ha])]
  show (⟨r.rid, some r.rid, nv⟩ : W) ∈
    (if r.interested = true then [(⟨r.rid, some r.rid, nv⟩ : W)] else [])
  rw [if_pos hi]
  simp

/-- An active replica reacts to a dead owner by clearing. -/
theorem mem_react_owned {rs : List Replica} {nv : Nat} {c : Nat} {r : Replica}
    (hr : r ∈ rs) (ha : r.active = true) (hq : inQuorum rs c = false) :
    (⟨r.rid, none, nv⟩ : W) ∈ react rs nv (.owned c) := by
  have hne : c ≠ r.rid := by
    intro hcr
    subst hcr
    have : inQuorum rs r.rid = true := by
      unfold inQuorum
      rw [List.any_eq_true]
      exact ⟨r, hr, by simp [ha]⟩
    rw [this] at hq
    cases hq
  unfold react
  rw [List.mem_flatMap]
  refine ⟨r, hr, ?_⟩
  unfold reactOne
  rw [if_neg (by simp [ha])]
  show (⟨r.rid, none, nv⟩ : W) ∈
    (if c = r.rid then ([] : List W)
     else if inQuorum rs c = true then [] else [⟨r.rid, none, nv⟩])
  rw [if_neg hne, if_neg (by simp [hq])]
  simp

/-- Lists mapped to at most singleton lists flatten to at most one element
per input. -/
theorem flatMap_length_le_one {α β : Type} (l : List α) (f : α → List β)
    (h : ∀ x ∈ l, (f x).length ≤ 1) : (l.flatMap f).length ≤ l.length := by
  induction l with
  | nil => simp
  | cons x xs ih =>
    rw [List.flatMap_cons, List.length_append, List.length_cons]
    have h1 := h x (by simp)
    have h2 := ih (fun y hy => h y (by simp [hy]))
    omega

/-- Each replica contributes at most one reaction. -/
theorem reactOne_length_le (rs : List Replica) (nv : Nat) (v : RVal) (r : Replica) :
    (reactOne rs nv v r).length ≤ 1 := by
  unfold reactOne
  split
  · simp
  · match v with
    | .owned c =>
      show (if c = r.rid then ([] : List W)
        else if inQuorum rs c = true then [] else [⟨r.rid, none, nv⟩]).length ≤ 1
      by_cases h1 : c = r.rid
      · simp [h1]
      · rw [if_neg h1]
        by_cases h2 : inQuorum rs c = true <;> simp [h2]
    | .unclaimed =>
      show (if r.interested = true
        then [(⟨r.rid, some r.rid, nv⟩ : W)] else []).length ≤ 1
      by_cases h1 : r.interested = true <;> simp [h1]
    | .absent =>
      show ([] : List W).length ≤ 1
      simp

/-- At most one reaction per replica in total. -/
theorem react_length_le (rs : List Replica) (nv : Nat) (v : RVal) :
    (react rs nv v).length ≤ rs.length :=
  flatMap_length_le_one rs (reactOne rs nv v)
    (fun r _ => reactOne_length_le rs nv v r)

/-- `inQuorum` as an existential. -/
theorem inQuorum_iff (rs : List Replica) (c : Nat) :
    inQuorum rs c = true ↔ ∃ r ∈ rs, r.rid = c ∧ r.active = true := by
  unfold inQuorum
  rw [List.any_eq_true]
  constructor
  · rintro ⟨r, hr, hb⟩
    simp at hb
    exact ⟨r, hr, hb.1, hb.2⟩
  · rintro ⟨r, hr, h1, h2⟩
    exact ⟨r, hr, by simp [h1, h2]⟩

/-- `Prog` only depends on the queue through `Acc`. -/
theorem prog_transport_q {rs : List Replica} {v : RVal} {ver : Nat} {q1 q2 : List W}
    (hacc : Acc ⟨rs, v, ver, q1⟩ → Acc ⟨rs, v, ver, q2⟩)
    (hp : Prog ⟨rs, v, ver, q1⟩) : Prog ⟨rs, v, ver, q2⟩ := by
  unfold Prog at hp ⊢
  match v with
  | .owned c => exact ⟨hp.1.imp id hacc, fun h1 h2 => hacc (hp.2 h1 h2)⟩
  | .unclaimed => exact fun h => hacc (hp h)
  | .absent => exact fun h => hacc (hp h)

/-- An acceptable write survives appending to the queue. -/
theorem exists_bv_append_left {q ext : List W} {ver : Nat}
    (h : ∃ w ∈ q, w.bv = ver) : ∃ w ∈ q ++ ext, w.bv = ver := by
  obtain ⟨w, hw, hb⟩ := h
  exact ⟨w, List.mem_append.mpr (Or.inl hw), hb⟩

/-- An acceptable appended write makes the queue acceptable. -/
theorem exists_bv_append_right {q ext : List W} {ver : Nat}
    (h : ∃ w ∈ ext, w.bv = ver) : ∃ w ∈ q ++ ext, w.bv = ver := by
  obtain ⟨w, hw, hb⟩ := h
  exact ⟨w, List.mem_append.mpr (Or.inr hw), hb⟩

/-- One log delivery preserves the invariant: a rejected write changes
nothing relevant; an accepted write installs a value that itself satisfies
`Prog` because the enqueued `atomicChanged` reactions provide the next
acceptable write whenever the new value needs reconciliation. -/
theorem logStep_inv {cfg : Config} (hinv : Inv cfg) (k : Nat) :
    Inv (logStep cfg k) := by
  obtain ⟨hnd, hwok, hprog⟩ := hinv
  unfold logStep
  by_cases hq : cfg.q.isEmpty
  · rw [if_pos hq]
    exact ⟨hnd, hwok, hprog⟩
  · rw [if_neg hq]
    have hlen : 0 < cfg.q.length := by
      cases hcase : cfg.q with
      | nil => rw [hcase] at hq; simp at hq
      | cons a l => simp
    have hilt : k % cfg.q.length < cfg.q.length := Nat.mod_lt _ hlen
    have hwmem : cfg.q.getD (k % cfg.q.length) default ∈ cfg.q := getD_mem hilt
    by_cases hbv : (cfg.q.getD (k % cfg.q.length) default).bv = cfg.ver
    · rw [if_pos hbv]
      refine ⟨hnd, ?_, ?_⟩
      · -- well-formedness of the new queue
        intro w2 hw2
        have hw2m : w2 ∈ cfg.q.eraseIdx (k % cfg.q.length) ++
            react cfg.repls (cfg.ver + 1)
              (applyVal (cfg.q.getD (k % cfg.q.length) default).val) := hw2
        rcases List.mem_append.mp hw2m with hw2m | hw2m
        · have hwk := hwok w2 (mem_of_mem_eraseIdx hw2m)
          refine ⟨Nat.le_succ_of_le hwk.1, ?_⟩
          intro hbv2 c hval
          exfalso
          have h1 := hwk.1
          have h2 : w2.bv = cfg.ver + 1 := hbv2
          omega
        · have hchar := react_mem_char hw2m
          refine ⟨le_of_eq hchar.1, ?_⟩
          intro hbv2 c hval
          rcases hchar.2 with ⟨hnone, _⟩ | ⟨r, hr, ha, hint, hwr, hval2, hv⟩
          · rw [hval] at hnone
            cases hnone
          · rw [hval] at hval2
            have hc : c = r.rid := by injection hval2
            subst hc
            refine ⟨hwr, ⟨r, hr, rfl, hint⟩, ?_⟩
            rw [hv]
            intro hcon
            cases hcon
      · -- progress for the new register value
        match hwv : (cfg.q.getD (k % cfg.q.length) default).val with
        | none =>
          show hasIA _ → Acc _
          intro hia
          obtain ⟨r, hr, ha, hint⟩ := hia
          refine exists_bv_append_right ⟨⟨r.rid, some r.rid, cfg.ver + 1⟩, ?_, rfl⟩
          exact mem_react_unclaimed hr ha hint
        | some c =>
          have hwk := (hwok _ hwmem).2 hbv c hwv
          obtain ⟨hwr, ⟨rc, hrc, hrid, hrint⟩, hregne⟩ := hwk
          constructor
          · refine Or.inl ?_
            intro r2 hr2 hr2c
            have : r2 = rc := by
              refine List.inj_on_of_nodup_map hnd hr2 hrc ?_
              simp [hr2c, hrid]
            rw [this]
            exact hrint
          · intro hqf hA
            obtain ⟨r, hr, ha⟩ := hA
            refine exists_bv_append_right ⟨⟨r.rid, none, cfg.ver + 1⟩, ?_, rfl⟩
            exact mem_react_owned hr ha hqf
    · rw [if_neg hbv]
      refine ⟨hnd, ?_, ?_⟩
      · intro w2 hw2
        have hw2m : w2 ∈ cfg.q.eraseIdx (k % cfg.q.length) := hw2
        exact hwok w2 (mem_of_mem_eraseIdx hw2m)
      · refine prog_transport_q ?_ hprog
        intro hacc
        exact exists_mem_eraseIdx cfg.q (k % cfg.q.length)
          (fun w3 => w3.bv = cfg.ver) hbv hacc

/-- `setR` preserves the clientId listing when `f` preserves `rid`. -/
theorem setR_map_rid (rs : List Replica) (c : Nat) (f : Replica → Replica)
    (hf : ∀ r, (f r).rid = r.rid) :
    (setR rs c f).map (fun r => r.rid) = rs.map (fun r => r.rid) := by
  unfold setR
  rw [List.map_map]
  refine List.map_congr_left ?_
  intro r hr
  simp only [Function.comp_apply]
  by_cases hc : r.rid = c
  · rw [if_pos hc, hf]
  · rw [if_neg hc]

/-- Origins of `setR` members. -/
theorem mem_setR_inv {rs : List Replica} {c : Nat} {f : Replica → Replica}
    {x : Replica} (hx : x ∈ setR rs c f) :
    ∃ r ∈ rs, x = if r.rid = c then f r else r := by
  unfold setR at hx
  rw [List.mem_map] at hx
  obtain ⟨r, hr, he⟩ := hx
  exact ⟨r, hr, he.symm⟩

/-- Images of members under `setR`. -/
theorem mem_setR_of_mem {rs : List Replica} {r : Replica} (c : Nat)
    (f : Replica → Replica) (hr : r ∈ rs) :
    (if r.rid = c then f r else r) ∈ setR rs c f :=
  List.mem_map_of_mem _ hr

/-- `inQuorum` is unchanged by `setR` with an activity-preserving update. -/
theorem inQuorum_setR (rs : List Replica) (c c2 : Nat) (f : Replica → Replica)
    (hfr : ∀ r, (f r).rid = r.rid) (hfa : ∀ r, (f r).active = r.active) :
    inQuorum (setR rs c f) c2 = inQuorum rs c2 := by
  by_cases h : inQuorum rs c2 = true
  · rw [h]
    obtain ⟨r, hr, h1, h2⟩ := (inQuorum_iff rs c2).mp h
    refine (inQuorum_iff _ c2).mpr ⟨if r.rid = c then f r else r, mem_setR_of_mem c f hr, ?_, ?_⟩
    · by_cases hc : r.rid = c
      · rw [if_pos hc, hfr]
        exact h1
      · rw [if_neg hc]
        exact h1
    · by_cases hc : r.rid = c
      · rw [if_pos hc, hfa]
        exact h2
      · rw [if_neg hc]
        exact h2
  · simp only [Bool.not_eq_true] at h
    rw [h]
    by_cases h2 : inQuorum (setR rs c f) c2 = true
    · exfalso
      obtain ⟨x, hx, hx1, hx2⟩ := (inQuorum_iff _ c2).mp h2
      obtain ⟨r, hr, he⟩ := mem_setR_inv hx
      have : inQuorum rs c2 = true := by
        refine (inQuorum_iff rs c2).mpr ⟨r, hr, ?_, ?_⟩
        · by_cases hc : r.rid = c
          · rw [he, if_pos hc] at hx1
            rw [← hx1, hfr]
          · rw [he, if_neg hc] at hx1
            exact hx1
        · by_cases hc : r.rid = c
          · rw [he, if_pos hc] at hx2
            rw [← hx2, hfa]
          · rw [he, if_neg hc] at hx2
            exact hx2
      rw [this] at h
      cases h
    · simp only [Bool.not_eq_true] at h2
      rw [h2]

/-- `doRelease` preserves the invariant: the released entry gains an
acceptable unclaimed write, and no acceptable claim for the releasing replica
can be pending while it observes itself as owner. -/
theorem doRelease_inv {cfg : Config} (hinv : Inv cfg) (c : Nat) :
    Inv (doRelease cfg c) := by
  obtain ⟨hnd, hwok, hprog⟩ := hinv
  unfold doRelease
  match hfind : cfg.repls.find? (fun r => r.rid = c) with
  | none =>
    rw [hfind]
    exact ⟨hnd, hwok, hprog⟩
  | some r =>
    rw [hfind]
    show Inv (if (r.interested && r.active && decide (cfg.reg = RVal.owned c)) = true
      then (⟨setR cfg.repls c fun x => { x with interested := false }, cfg.reg, cfg.ver,
        cfg.q ++ [⟨c, none, cfg.ver⟩]⟩ : Config)
      else cfg)
    by_cases hg : (r.interested && r.active && (decide (cfg.reg = RVal.owned c))) = true
    · rw [if_pos hg]
      simp only [Bool.and_eq_true, decide_eq_true_eq] at hg
      obtain ⟨⟨hgi, hga⟩, hgr⟩ := hg
      refine ⟨?_, ?_, ?_⟩
      · rw [show (setR cfg.repls c fun x => { x with interested := false }).map
            (fun r => r.rid) = cfg.repls.map (fun r => r.rid) from
          setR_map_rid _ c _ (fun x => rfl)]
        exact hnd
      · intro w hw
        have hw2 : w ∈ cfg.q ++ [⟨c, none, cfg.ver⟩] := hw
        rcases List.mem_append.mp hw2 with hw2 | hw2
        · have hwk := hwok w hw2
          refine ⟨hwk.1, ?_⟩
          intro hbv c2 hval
          obtain ⟨hwr, ⟨r0, hr0, hrid0, hint0⟩, hregne⟩ := hwk.2 hbv c2 hval
          by_cases hc2 : c2 = c
          · exfalso
            rw [hc2] at hregne
            exact hregne hgr
          · refine ⟨hwr, ⟨r0, ?_, hrid0, hint0⟩, hregne⟩
            have := mem_setR_of_mem c (fun x => { x with interested := false }) hr0
            rw [if_neg (by rw [hrid0]; exact hc2)] at this
            exact this
        · rcases List.mem_singleton.mp hw2 with rfl
          exact ⟨Nat.le_refl _, fun _ c2 hval => by cases hval⟩
      · rw [hgr]
        have hacc : Acc ⟨setR cfg.repls c fun x => { x with interested := false },
            RVal.owned c, cfg.ver, cfg.q ++ [⟨c, none, cfg.ver⟩]⟩ :=
          exists_bv_append_right ⟨⟨c, none, cfg.ver⟩, by simp, rfl⟩
        exact ⟨Or.inr hacc, fun _ _ => hacc⟩
    · rw [if_neg hg]
      exact ⟨hnd, hwok, hprog⟩

/-- An interested-owner witness survives an interest-monotone `setR`. -/
theorem witness_setR_mono {rs : List Replica} {c2 : Nat} (c : Nat)
    (f : Replica → Replica) (hfr : ∀ r, (f r).rid = r.rid)
    (hfi : ∀ r, r.interested = true → (f r).interested = true)
    (h : ∃ r0 ∈ rs, r0.rid = c2 ∧ r0.interested = true) :
    ∃ r0 ∈ setR rs c f, r0.rid = c2 ∧ r0.interested = true := by
  obtain ⟨r0, hr0, h1, h2⟩ := h
  refine ⟨if r0.rid = c then f r0 else r0, mem_setR_of_mem c f hr0, ?_, ?_⟩
  · by_cases hc : r0.rid = c
    · rw [if_pos hc, hfr]
      exact h1
    · rw [if_neg hc]
      exact h1
  · by_cases hc : r0.rid = c
    · rw [if_pos hc]
      exact hfi r0 h2
    · rw [if_neg hc]
      exact h2

/-- `ownerInterested` survives an interest-monotone `setR`. -/
theorem ownerInterested_setR_mono {rs : List Replica} {c2 : Nat} (c : Nat)
    (f : Replica → Replica) (hfr : ∀ r, (f r).rid = r.rid)
    (hfi : ∀ r, r.interested = true → (f r).interested = true)
    (h : ownerInterested rs c2) : ownerInterested (setR rs c f) c2 := by
  intro x hx hxc
  obtain ⟨r0, hr0, he⟩ := mem_setR_inv hx
  by_cases hc : r0.rid = c
  · rw [he, if_pos hc]
    refine hfi r0 (h r0 hr0 ?_)
    rw [he, if_pos hc, hfr] at hxc
    exact hxc
  · rw [he, if_neg hc]
    refine h r0 hr0 ?_
    rw [he, if_neg hc] at hxc
    exact hxc

/-- An active member of `setR` has an active origin when `f` does not raise
activity. -/
theorem hasA_of_setR {rs : List Replica} {c : Nat} {f : Replica → Replica}
    (hfa : ∀ r, (f r).active = true → r.active = true)
    (h : ∃ x ∈ setR rs c f, x.active = true) : ∃ r ∈ rs, r.active = true := by
  obtain ⟨x, hx, hxa⟩ := h
  obtain ⟨r0, hr0, he⟩ := mem_setR_inv hx
  by_cases hc : r0.rid = c
  · rw [he, if_pos hc] at hxa
    exact ⟨r0, hr0, hfa r0 hxa⟩
  · rw [he, if_neg hc] at hxa
    exact ⟨r0, hr0, hxa⟩

/-- Quorum absence transfers back when `f` does not lower activity. -/
theorem inQuorum_false_of_setR {rs : List Replica} {c c2 : Nat}
    {f : Replica → Replica} (hfr : ∀ r, (f r).rid = r.rid)
    (hfa : ∀ r, r.active = true → (f r).active = true)
    (h : inQuorum (setR rs c f) c2 = false) : inQuorum rs c2 = false := by
  by_cases h2 : inQuorum rs c2 = true
  · exfalso
    obtain ⟨r, hr, h3, h4⟩ := (inQuorum_iff rs c2).mp h2
    have : inQuorum (setR rs c f) c2 = true := by
      refine (inQuorum_iff _ c2).mpr
        ⟨if r.rid = c then f r else r, mem_setR_of_mem c f hr, ?_, ?_⟩
      · by_cases hc : r.rid = c
        · rw [if_pos hc, hfr]
          exact h3
        · rw [if_neg hc]
          exact h3
      · by_cases hc : r.rid = c
        · rw [if_pos hc]
          exact hfa r h4
        · rw [if_neg hc]
          exact h4
    rw [this] at h
    cases h
  · simp only [Bool.not_eq_true] at h2
    exact h2

/-- Quorum absence transfers back for ids other than the updated one. -/
theorem inQuorum_false_of_setR_ne {rs : List Replica} {c c2 : Nat}
    {f : Replica → Replica} (hne : c2 ≠ c)
    (h : inQuorum (setR rs c f) c2 = false) : inQuorum rs c2 = false := by
  by_cases h2 : inQuorum rs c2 = true
  · exfalso
    obtain ⟨r, hr, h3, h4⟩ := (inQuorum_iff rs c2).mp h2
    have hc : ¬ r.rid = c := by
      rw [h3]
      exact hne
    have : inQuorum (setR rs c f) c2 = true := by
      refine (inQuorum_iff _ c2).mpr ⟨r, ?_, h3, h4⟩
      have := mem_setR_of_mem c f hr
      rw [if_neg hc] at this
      exact this
    rw [this] at h
    cases h
  · simp only [Bool.not_eq_true] at h2
    exact h2

/-- Characterization of `initScan` writes. -/
theorem initScan_mem_char {cfg : Config} {r : Replica} {w : W}
    (h : w ∈ initScan cfg r) :
    w.bv = cfg.ver ∧ (w.val = none ∨
      (r.interested = true ∧ w.writer = r.rid ∧ w.val = some r.rid ∧
        (cfg.reg = .absent ∨ cfg.reg = .unclaimed))) := by
  unfold initScan at h
  match hreg : cfg.reg with
  | .absent =>
    rw [hreg] at h
    have h2 : w ∈ (if r.interested = true
        then [(⟨r.rid, some r.rid, cfg.ver⟩ : W)] else []) := h
    by_cases hi : r.interested = true
    · rw [if_pos hi] at h2
      rcases List.mem_singleton.mp h2 with rfl
      exact ⟨rfl, Or.inr ⟨hi, rfl, rfl, Or.inl rfl⟩⟩
    · rw [if_neg hi] at h2
      simp at h2
  | .unclaimed =>
    rw [hreg] at h
    have h2 : w ∈ (if r.interested = true
        then [(⟨r.rid, some r.rid, cfg.ver⟩ : W)] else []) := h
    by_cases hi : r.interested = true
    · rw [if_pos hi] at h2
      rcases List.mem_singleton.mp h2 with rfl
      exact ⟨rfl, Or.inr ⟨hi, rfl, rfl, Or.inr rfl⟩⟩
    · rw [if_neg hi] at h2
      simp at h2
  | .owned c2 =>
    rw [hreg] at h
    have h2 : w ∈ (if inQuorum cfg.repls c2 = true then ([] : List W)
        else [⟨r.rid, none, cfg.ver⟩]) := h
    by_cases hq : inQuorum cfg.repls c2 = true
    · rw [if_pos hq] at h2
      simp at h2
    · rw [if_neg hq] at h2
      rcases List.mem_singleton.mp h2 with rfl
      exact ⟨rfl, Or.inl rfl⟩

/-- `initScan` clears a dead-owned entry. -/
theorem initScan_clear {cfg : Config} {r : Replica} {c2 : Nat}
    (hreg : cfg.reg = .owned c2) (hq : inQuorum cfg.repls c2 = false) :
    (⟨r.rid, none, cfg.ver⟩ : W) ∈ initScan cfg r := by
  unfold initScan
  rw [hreg]
  show (⟨r.rid, none, cfg.ver⟩ : W) ∈ (if inQuorum cfg.repls c2 = true
    then ([] : List W) else [⟨r.rid, none, cfg.ver⟩])
  rw [if_neg (by simp [hq])]
  simp

/-- `initScan` claims a falsy entry for an interested replica. -/
theorem initScan_claim {cfg : Config} {r : Replica}
    (hreg : cfg.reg = .absent ∨ cfg.reg = .unclaimed) (hi : r.interested = true) :
    (⟨r.rid, some r.rid, cfg.ver⟩ : W) ∈ initScan cfg r := by
  unfold initScan
  rcases hreg with hreg | hreg <;>
    · rw [hreg]
      show (⟨r.rid, some r.rid, cfg.ver⟩ : W) ∈ (if r.interested = true
        then [(⟨r.rid, some r.rid, cfg.ver⟩ : W)] else [])
      rw [if_pos hi]
      simp

/-- Characterization of `removeScan` writes. -/
theorem removeScan_mem_char {cfg : Config} {gone : Nat} {w : W}
    (h : w ∈ removeScan cfg gone) :
    w.bv = cfg.ver ∧ (w.val = none ∨
      ∃ i ∈ cfg.repls, i.active = true ∧ i.interested = true ∧
        w.writer = i.rid ∧ w.val = some i.rid) ∧ cfg.reg = .owned gone := by
  unfold removeScan at h
  by_cases hreg : cfg.reg = RVal.owned gone
  · rw [if_pos hreg] at h
    rw [List.mem_flatMap] at h
    obtain ⟨i, hi, hw⟩ := h
    have hw2 : w ∈ (if i.active = true then
        (if i.interested = true then [(⟨i.rid, some i.rid, cfg.ver⟩ : W)]
         else [⟨i.rid, none, cfg.ver⟩])
        else []) := hw
    by_cases ha : i.active = true
    · rw [if_pos ha] at hw2
      by_cases hint : i.interested = true
      · rw [if_pos hint] at hw2
        rcases List.mem_singleton.mp hw2 with rfl
        exact ⟨rfl, Or.inr ⟨i, hi, ha, hint, rfl, rfl⟩, hreg⟩
      · rw [if_neg hint] at hw2
        rcases List.mem_singleton.mp hw2 with rfl
        exact ⟨rfl, Or.inl rfl, hreg⟩
    · rw [if_neg ha] at hw2
      simp at hw2
  · rw [if_neg hreg] at h
    simp at h

/-- `doPick` preserves the invariant: interest only grows, and the claim
write, issued exactly when the replica is active and the entry falsy, is
acceptable and well formed. -/
theorem doPick_inv {cfg : Config} (hinv : Inv cfg) (c : Nat) :
    Inv (doPick cfg c) := by
  obtain ⟨hnd, hwok, hprog⟩ := hinv
  unfold doPick
  match hfind : cfg.repls.find? (fun r => r.rid = c) with
  | none =>
    rw [hfind]
    exact ⟨hnd, hwok, hprog⟩
  | some r =>
    rw [hfind]
    have hrc : r.rid = c := by simpa using List.find?_some hfind
    have hrmem : r ∈ cfg.repls := List.mem_of_find?_eq_some hfind
    show Inv (if r.interested = true then cfg
      else if (r.active && !(isOwned cfg.reg)) = true then
        ⟨setR cfg.repls c (fun x => { x with interested := true }), cfg.reg, cfg.ver,
          cfg.q ++ [⟨c, some c, cfg.ver⟩]⟩
      else ⟨setR cfg.repls c (fun x => { x with interested := true }),
        cfg.reg, cfg.ver, cfg.q⟩)
    by_cases hri : r.interested = true
    · rw [if_pos hri]
      exact ⟨hnd, hwok, hprog⟩
    · rw [if_neg hri]
      have hndk : ((setR cfg.repls c fun x => { x with interested := true }).map
          (fun r => r.rid)).Nodup := by
        rw [setR_map_rid cfg.repls c (fun x => { x with interested := true })
          (fun x => rfl)]
        exact hnd
      have hwokNew : ∀ w ∈ cfg.q, w.bv ≤ cfg.ver ∧
          (w.bv = cfg.ver → ∀ c2, w.val = some c2 →
            (w.writer = c2 ∧ (∃ r0 ∈ setR cfg.repls c (fun x => { x with interested := true }),
              r0.rid = c2 ∧ r0.interested = true) ∧ cfg.reg ≠ .owned c2)) := by
        intro w hw
        have hwk := hwok w hw
        refine ⟨hwk.1, ?_⟩
        intro hbv c2 hval
        obtain ⟨h1, h2, h3⟩ := hwk.2 hbv c2 hval
        exact ⟨h1, witness_setR_mono c _ (fun x => rfl) (fun x hx => rfl) h2, h3⟩
      by_cases hact : (r.active && !(isOwned cfg.reg)) = true
      · rw [if_pos hact]
        simp only [Bool.and_eq_true] at hact
        have hown : isOwned cfg.reg = false := by simpa using hact.2
        have hregF : ∀ c2, cfg.reg ≠ RVal.owned c2 := by
          intro c2 hcon
          rw [hcon] at hown
          simp [isOwned] at hown
        refine ⟨hndk, ?_, ?_⟩
        · intro w hw
          have hw2 : w ∈ cfg.q ++ [⟨c, some c, cfg.ver⟩] := hw
          rcases List.mem_append.mp hw2 with hw2 | hw2
          · exact hwokNew w hw2
          · rcases List.mem_singleton.mp hw2 with rfl
            refine ⟨Nat.le_refl _, ?_⟩
            intro hbv c2 hval
            have hc2 : c2 = c := by
              injection hval with h
              exact h.symm
            refine ⟨hc2.symm, ?_, ?_⟩
            · refine ⟨{ r with interested := true }, ?_, by rw [hrc]; exact hc2.symm, rfl⟩
              have himg := mem_setR_of_mem c (fun x => { x with interested := true }) hrmem
              rw [if_pos hrc] at himg
              exact himg
            · rw [hc2]
              exact hregF c
        · match hreg : cfg.reg with
          | .owned c2 => exact absurd hreg (hregF c2)
          | .absent =>
            exact fun _ => exists_bv_append_right ⟨⟨c, some c, cfg.ver⟩, by simp, rfl⟩
          | .unclaimed =>
            exact fun _ => exists_bv_append_right ⟨⟨c, some c, cfg.ver⟩, by simp, rfl⟩
      · rw [if_neg hact]
        refine ⟨hndk, ?_, ?_⟩
        · intro w hw
          exact hwokNew w hw
        · match hreg : cfg.reg with
          | .owned c2 =>
            have hp2 : (ownerInterested cfg.repls c2 ∨ Acc cfg) ∧
                (inQuorum cfg.repls c2 = false → hasA cfg → Acc cfg) := by
              unfold Prog at hprog
              rw [hreg] at hprog
              exact hprog
            constructor
            · rcases hp2.1 with hoi | hacc
              · exact Or.inl (ownerInterested_setR_mono c _ (fun x => rfl)
                  (fun x hx => rfl) hoi)
              · exact Or.inr hacc
            · intro hqf hA
              have hqf2 : inQuorum cfg.repls c2 = false :=
                @inQuorum_false_of_setR cfg.repls c c2
                  (fun x => { x with interested := true }) (fun x => rfl)
                  (fun x hx => hx) hqf
              have hA2 : hasA cfg :=
                @hasA_of_setR cfg.repls c (fun x => { x with interested := true })
                  (fun x hx => hx) hA
              exact hp2.2 hqf2 hA2
          | .absent =>
            intro hia
            obtain ⟨x, hx, hxa, hxi⟩ := hia
            obtain ⟨r0, hr0, he⟩ := mem_setR_inv hx
            by_cases hc0 : r0.rid = c
            · exfalso
              have hr0r : r0 = r :=
                List.inj_on_of_nodup_map hnd hr0 hrmem (by rw [hc0, hrc])
              rw [hreg] at hact
              simp [isOwned] at hact
              rw [he, if_pos hc0] at hxa
              have : r0.active = true := hxa
              rw [hr0r, hact] at this
              cases this
            · rw [he, if_neg hc0] at hxa hxi
              have hia0 : hasIA cfg := ⟨r0, hr0, hxa, hxi⟩
              have hacc : Acc cfg := by
                unfold Prog at hprog
                rw [hreg] at hprog
                exact hprog hia0
              exact hacc
          | .unclaimed =>
            intro hia
            obtain ⟨x, hx, hxa, hxi⟩ := hia
            obtain ⟨r0, hr0, he⟩ := mem_setR_inv hx
            by_cases hc0 : r0.rid = c
            · exfalso
              have hr0r : r0 = r :=
                List.inj_on_of_nodup_map hnd hr0 hrmem (by rw [hc0, hrc])
              rw [hreg] at hact
              simp [isOwned] at hact
              rw [he, if_pos hc0] at hxa
              have : r0.active = true := hxa
              rw [hr0r, hact] at this
              cases this
            · rw [he, if_neg hc0] at hxa hxi
              have hia0 : hasIA cfg := ⟨r0, hr0, hxa, hxi⟩
              have hacc : Acc cfg := by
                unfold Prog at hprog
                rw [hreg] at hprog
                exact hprog hia0
              exact hacc

/-- Any active replica contributes an acceptable `removeMember` write when
the leaver owned the entry. -/
theorem removeScan_mem_of_active {cfg : Config} {gone : Nat} {i : Replica}
    (hreg : cfg.reg = .owned gone) (hi : i ∈ cfg.repls) (ha : i.active = true) :
    ∃ w ∈ removeScan cfg gone, w.bv = cfg.ver := by
  unfold removeScan
  rw [if_pos hreg]
  by_cases hint : i.interested = true
  · refine ⟨⟨i.rid, some i.rid, cfg.ver⟩, ?_, rfl⟩
    rw [List.mem_flatMap]
    refine ⟨i, hi, ?_⟩
    rw [if_pos ha, if_pos hint]
    simp
  · refine ⟨⟨i.rid, none, cfg.ver⟩, ?_, rfl⟩
    rw [List.mem_flatMap]
    refine ⟨i, hi, ?_⟩
    rw [if_pos ha, if_neg hint]
    simp

/-- `doDisconnect` preserves the invariant: if the leaver owned the entry,
every remaining active replica enqueues an acceptable reconciliation write. -/
theorem doDisconnect_inv {cfg : Config} (hinv : Inv cfg) (c : Nat) :
    Inv (doDisconnect cfg c) := by
  obtain ⟨hnd, hwok, hprog⟩ := hinv
  unfold doDisconnect
  show Inv ⟨setR cfg.repls c (fun r => { r with active := false }), cfg.reg, cfg.ver,
    cfg.q ++ removeScan ⟨setR cfg.repls c (fun r => { r with active := false }),
      cfg.reg, cfg.ver, cfg.q⟩ c⟩
  have hrid_ne : ∀ i : Replica,
      i ∈ setR cfg.repls c (fun r => { r with active := false }) →
      i.active = true → ¬ i.rid = c := by
    intro i hi hia hic
    obtain ⟨r0, hr0, he⟩ := mem_setR_inv hi
    by_cases hc0 : r0.rid = c
    · rw [he, if_pos hc0] at hia
      simp at hia
    · rw [he, if_neg hc0] at hic
      exact hc0 hic
  refine ⟨?_, ?_, ?_⟩
  · rw [setR_map_rid cfg.repls c (fun r => { r with active := false }) (fun x => rfl)]
    exact hnd
  · intro w hw
    have hw2 : w ∈ cfg.q ++ removeScan ⟨setR cfg.repls c
        (fun r => { r with active := false }), cfg.reg, cfg.ver, cfg.q⟩ c := hw
    rcases List.mem_append.mp hw2 with hw2 | hw2
    · have hwk := hwok w hw2
      refine ⟨hwk.1, ?_⟩
      intro hbv c2 hval
      obtain ⟨h1, h2, h3⟩ := hwk.2 hbv c2 hval
      exact ⟨h1, witness_setR_mono c (fun r => { r with active := false })
        (fun x => rfl) (fun x hx => hx) h2, h3⟩
    · have hchar := removeScan_mem_char hw2
      refine ⟨le_of_eq hchar.1, ?_⟩
      intro hbv c2 hval
      rcases hchar.2.1 with hnone | ⟨i, hi, hia, hint, hwr, hval2⟩
      · rw [hval] at hnone
        cases hnone
      · rw [hval] at hval2
        have hc2 : c2 = i.rid := by injection hval2
        refine ⟨by rw [hwr, hc2], ⟨i, hi, hc2.symm, hint⟩, ?_⟩
        have hreggone := hchar.2.2
        intro hcon
        rw [hcon] at hreggone
        have : c2 = c := by injection hreggone
        exact hrid_ne i hi hia (by rw [← hc2, this])
  · match hreg : cfg.reg with
    | .absent =>
      intro hia
      obtain ⟨x, hx, hxa, hxi⟩ := hia
      obtain ⟨r0, hr0, he⟩ := mem_setR_inv hx
      by_cases hc0 : r0.rid = c
      · rw [he, if_pos hc0] at hxa
        simp at hxa
      · rw [he, if_neg hc0] at hxa hxi
        have hacc : Acc cfg := by
          unfold Prog at hprog
          rw [hreg] at hprog
          exact hprog ⟨r0, hr0, hxa, hxi⟩
        exact exists_bv_append_left hacc
    | .unclaimed =>
      intro hia
      obtain ⟨x, hx, hxa, hxi⟩ := hia
      obtain ⟨r0, hr0, he⟩ := mem_setR_inv hx
      by_cases hc0 : r0.rid = c
      · rw [he, if_pos hc0] at hxa
        simp at hxa
      · rw [he, if_neg hc0] at hxa hxi
        have hacc : Acc cfg := by
          unfold Prog at hprog
          rw [hreg] at hprog
          exact hprog ⟨r0, hr0, hxa, hxi⟩
        exact exists_bv_append_left hacc
    | .owned c2 =>
      have hp2 : (ownerInterested cfg.repls c2 ∨ Acc cfg) ∧
          (inQuorum cfg.repls c2 = false → hasA cfg → Acc cfg) := by
        unfold Prog at hprog
        rw [hreg] at hprog
        exact hprog
      constructor
      · rcases hp2.1 with hoi | hacc
        · exact Or.inl (ownerInterested_setR_mono c (fun r => { r with active := false })
            (fun x => rfl) (fun x hx => hx) hoi)
        · exact Or.inr (exists_bv_append_left hacc)
      · intro hqf hA
        obtain ⟨x, hx, hxa⟩ := hA
        by_cases hc2 : c2 = c
        · refine exists_bv_append_right ?_
          refine removeScan_mem_of_active ?_ hx hxa
          show RVal.owned c2 = RVal.owned c
          rw [hc2]
        · have hqf2 : inQuorum cfg.repls c2 = false :=
            @inQuorum_false_of_setR_ne cfg.repls c c2
              (fun r => { r with active := false }) hc2 hqf
          have hA2 : hasA cfg :=
            @hasA_of_setR cfg.repls c (fun r => { r with active := false })
              (fun x hx => by simp at hx) ⟨x, hx, hxa⟩
          exact exists_bv_append_left (hp2.2 hqf2 hA2)

/-- `doConnect` preserves the invariant: the connecting replica's
`initializeCore` scan enqueues an acceptable claim or clear write whenever
the register needs reconciliation. -/
theorem doConnect_inv {cfg : Config} (hinv : Inv cfg) (c : Nat) :
    Inv (doConnect cfg c) := by
  obtain ⟨hnd, hwok, hprog⟩ := hinv
  unfold doConnect
  have hndk : ((setR cfg.repls c fun r => { r with active := true }).map
      (fun r => r.rid)).Nodup := by
    rw [setR_map_rid cfg.repls c (fun r => { r with active := true }) (fun x => rfl)]
    exact hnd
  have hwokOld : ∀ w ∈ cfg.q, w.bv ≤ cfg.ver ∧
      (w.bv = cfg.ver → ∀ c2, w.val = some c2 →
        (w.writer = c2 ∧ (∃ r0 ∈ setR cfg.repls c (fun r => { r with active := true }),
          r0.rid = c2 ∧ r0.interested = true) ∧ cfg.reg ≠ .owned c2)) := by
    intro w hw
    have hwk := hwok w hw
    refine ⟨hwk.1, ?_⟩
    intro hbv c2 hval
    obtain ⟨h1, h2, h3⟩ := hwk.2 hbv c2 hval
    exact ⟨h1, witness_setR_mono c (fun r => { r with active := true })
      (fun x => rfl) (fun x hx => hx) h2, h3⟩
  match hfind : (setR cfg.repls c fun r => { r with active := true }).find?
      (fun r => r.rid = c) with
  | none =>
    rw [hfind]
    have hnoc : ∀ x ∈ setR cfg.repls c (fun r => { r with active := true }),
        ¬ x.rid = c := by
      intro x hx
      have := List.find?_eq_none.mp hfind x hx
      simpa using this
    refine ⟨hndk, fun w hw => hwokOld w hw, ?_⟩
    match hreg : cfg.reg with
    | .absent =>
      intro hia
      obtain ⟨x, hx, hxa, hxi⟩ := hia
      obtain ⟨r0, hr0, he⟩ := mem_setR_inv hx
      by_cases hc0 : r0.rid = c
      · exfalso
        refine hnoc x hx ?_
        rw [he, if_pos hc0]
        exact hc0
      · rw [he, if_neg hc0] at hxa hxi
        unfold Prog at hprog
        rw [hreg] at hprog
        exact hprog ⟨r0, hr0, hxa, hxi⟩
    | .unclaimed =>
      intro hia
      obtain ⟨x, hx, hxa, hxi⟩ := hia
      obtain ⟨r0, hr0, he⟩ := mem_setR_inv hx
      by_cases hc0 : r0.rid = c
      · exfalso
        refine hnoc x hx ?_
        rw [he, if_pos hc0]
        exact hc0
      · rw [he, if_neg hc0] at hxa hxi
        unfold Prog at hprog
        rw [hreg] at hprog
        exact hprog ⟨r0, hr0, hxa, hxi⟩
    | .owned c2 =>
      have hp2 : (ownerInterested cfg.repls c2 ∨ Acc cfg) ∧
          (inQuorum cfg.repls c2 = false → hasA cfg → Acc cfg) := by
        unfold Prog at hprog
        rw [hreg] at hprog
        exact hprog
      constructor
      · rcases hp2.1 with hoi | hacc
        · exact Or.inl (ownerInterested_setR_mono c (fun r => { r with active := true })
            (fun x => rfl) (fun x hx => hx) hoi)
        · exact Or.inr hacc
      · intro hqf hA
        have hqf2 : inQuorum cfg.repls c2 = false :=
          @inQuorum_false_of_setR cfg.repls c c2
            (fun r => { r with active := true }) (fun x => rfl) (fun x hx => rfl) hqf
        obtain ⟨x, hx, hxa⟩ := hA
        obtain ⟨r0, hr0, he⟩ := mem_setR_inv hx
        by_cases hc0 : r0.rid = c
        · exfalso
          refine hnoc x hx ?_
          rw [he, if_pos hc0]
          exact hc0
        · rw [he, if_neg hc0] at hxa
          exact hp2.2 hqf2 ⟨r0, hr0, hxa⟩
  | some r =>
    rw [hfind]
    have hrc : r.rid = c := by simpa using List.find?_some hfind
    have hrmem : r ∈ setR cfg.repls c (fun x => { x with active := true }) :=
      List.mem_of_find?_eq_some hfind
    refine ⟨hndk, ?_, ?_⟩
    · intro w hw
      have hw2 : w ∈ cfg.q ++ initScan ⟨setR cfg.repls c
          (fun x => { x with active := true }), cfg.reg, cfg.ver, cfg.q⟩ r := hw
      rcases List.mem_append.mp hw2 with hw2 | hw2
      · exact hwokOld w hw2
      · have hchar := initScan_mem_char hw2
        refine ⟨le_of_eq hchar.1, ?_⟩
        intro hbv c2 hval
        rcases hchar.2 with hnone | ⟨hint, hwr, hval2, hfalsy⟩
        · rw [hval] at hnone
          cases hnone
        · rw [hval] at hval2
          have hc2 : c2 = r.rid := by injection hval2
          refine ⟨by rw [hwr, hc2], ⟨r, hrmem, hc2.symm, hint⟩, ?_⟩
          rcases hfalsy with hfalsy | hfalsy <;>
            · show cfg.reg ≠ RVal.owned c2
              rw [show (⟨setR cfg.repls c (fun x => { x with active := true }),
                cfg.reg, cfg.ver, cfg.q⟩ : Config).reg = cfg.reg from rfl] at hfalsy
              rw [hfalsy]
              intro hcon
              cases hcon
    · match hreg : cfg.reg with
      | .absent =>
        intro hia
        obtain ⟨x, hx, hxa, hxi⟩ := hia
        obtain ⟨r0, hr0, he⟩ := mem_setR_inv hx
        by_cases hc0 : r0.rid = c
        · have hxr : x = r := by
            refine List.inj_on_of_nodup_map hndk hx hrmem ?_
            rw [hrc, he, if_pos hc0]
            exact hc0
          refine exists_bv_append_right
            ⟨⟨r.rid, some r.rid, cfg.ver⟩, initScan_claim (Or.inl rfl) ?_, rfl⟩
          rw [← hxr]
          exact hxi
        · rw [he, if_neg hc0] at hxa hxi
          have hacc : Acc cfg := by
            unfold Prog at hprog
            rw [hreg] at hprog
            exact hprog ⟨r0, hr0, hxa, hxi⟩
          exact exists_bv_append_left hacc
      | .unclaimed =>
        intro hia
        obtain ⟨x, hx, hxa, hxi⟩ := hia
        obtain ⟨r0, hr0, he⟩ := mem_setR_inv hx
        by_cases hc0 : r0.rid = c
        · have hxr : x = r := by
            refine List.inj_on_of_nodup_map hndk hx hrmem ?_
            rw [hrc, he, if_pos hc0]
            exact hc0
          refine exists_bv_append_right
            ⟨⟨r.rid, some r.rid, cfg.ver⟩, initScan_claim (Or.inr rfl) ?_, rfl⟩
          rw [← hxr]
          exact hxi
        · rw [he, if_neg hc0] at hxa hxi
          have hacc : Acc cfg := by
            unfold Prog at hprog
            rw [hreg] at hprog
            exact hprog ⟨r0, hr0, hxa, hxi⟩
          exact exists_bv_append_left hacc
      | .owned c2 =>
        have hp2 : (ownerInterested cfg.repls c2 ∨ Acc cfg) ∧
            (inQuorum cfg.repls c2 = false → hasA cfg → Acc cfg) := by
          unfold Prog at hprog
          rw [hreg] at hprog
          exact hprog
        constructor
        · rcases hp2.1 with hoi | hacc
          · exact Or.inl (ownerInterested_setR_mono c (fun x => { x with active := true })
              (fun x => rfl) (fun x hx => hx) hoi)
          · exact Or.inr (exists_bv_append_left hacc)
        · intro hqf hA
          exact exists_bv_append_right
            ⟨⟨r.rid, none, cfg.ver⟩, initScan_clear rfl hqf, rfl⟩

/-- Every event preserves the invariant. -/
theorem stepA_inv {cfg : Config} (hinv : Inv cfg) (a : Act) : Inv (stepA cfg a) := by
  cases a with
  | connect c => exact doConnect_inv hinv c
  | disconnect c => exact doDisconnect_inv hinv c
  | pickTask c => exact doPick_inv hinv c
  | releaseTask c => exact doRelease_inv hinv c
  | deliver k => exact logStep_inv hinv k

/-- Event sequences preserve the invariant. -/
theorem runA_inv {cfg : Config} (hinv : Inv cfg) (as : List Act) :
    Inv (runA cfg as) := by
  induction as generalizing cfg with
  | nil => exact hinv
  | cons a as ih => exact ih (stepA_inv hinv a)

/-- The initial configuration satisfies the invariant. -/
theorem startCfg_inv (rids : List Nat) (hnd : rids.Nodup) : Inv (startCfg rids) := by
  refine ⟨?_, ?_, ?_⟩
  · show ((rids.map (fun n => (⟨n, false, false⟩ : Replica))).map (fun r => r.rid)).Nodup
    have hmm : (rids.map (fun n => (⟨n, false, false⟩ : Replica))).map (fun r => r.rid)
        = rids := by
      rw [List.map_map]
      exact List.map_id rids
    rw [hmm]
    exact hnd
  · intro w hw
    have hw2 : w ∈ ([] : List W) := hw
    simp at hw2
  · intro hia
    obtain ⟨r, hr, ha, _⟩ := hia
    have hr2 : r ∈ rids.map (fun n => (⟨n, false, false⟩ : Replica)) := hr
    rw [List.mem_map] at hr2
    obtain ⟨n, hn, he⟩ := hr2
    rw [← he] at ha
    simp at ha

/-- Bound on the number of further accepted writes once a write with the
given value is accepted: a claim for a live client is final; an unclaimed
write can be followed by one claim; a claim for a dead client is followed by
a clear and then a claim. -/
def vcost (rs : List Replica) : Option Nat → Nat
  | none => 2
  | some c => if inQuorum rs c then 1 else 3

/-- Bound on the number of future accepted writes of the configuration. -/
def accCost (cfg : Config) : Nat :=
  (cfg.q.filter (fun w => w.bv = cfg.ver)).foldr
    (fun w m => max (vcost cfg.repls w.val) m) 0

/-- The termination measure of the delivery phase: each delivery removes one
pending write and an accepted one adds at most one write per replica while
strictly lowering the accept potential. -/
def mu (cfg : Config) : Nat := cfg.repls.length * accCost cfg + cfg.q.length

/-- Fold-max dominates each member. -/
theorem le_foldr_max (l : List W) (f : W → Nat) (w : W) (hw : w ∈ l) :
    f w ≤ l.foldr (fun x m => max (f x) m) 0 := by
  induction l with
  | nil => simp at hw
  | cons x xs ih =>
    rcases List.mem_cons.mp hw with rfl | hw
    · exact le_max_left _ _
    · exact le_trans (ih hw) (le_max_right _ _)

/-- Fold-max of a bounded list is bounded. -/
theorem foldr_max_le (l : List W) (f : W → Nat) (B : Nat)
    (h : ∀ w ∈ l, f w ≤ B) : l.foldr (fun x m => max (f x) m) 0 ≤ B := by
  induction l with
  | nil => simp
  | cons x xs ih =>
    simp only [List.foldr_cons]
    exact max_le (h x (by simp)) (ih (fun w hw => h w (by simp [hw])))

/-- Every value costs at most 3. -/
theorem vcost_le_three (rs : List Replica) (v : Option Nat) : vcost rs v ≤ 3 := by
  match v with
  | none =>
    show (2 : Nat) ≤ 3
    omega
  | some c =>
    show (if inQuorum rs c = true then 1 else 3) ≤ 3
    split <;> omega

/-- Every value costs at least 1. -/
theorem vcost_pos (rs : List Replica) (v : Option Nat) : 1 ≤ vcost rs v := by
  match v with
  | none =>
    show (1 : Nat) ≤ 2
    omega
  | some c =>
    show 1 ≤ (if inQuorum rs c = true then 1 else 3)
    split <;> omega

/-- The accept potential is at most 3. -/
theorem accCost_le_three (cfg : Config) : accCost cfg ≤ 3 :=
  foldr_max_le _ _ 3 (fun w _ => vcost_le_three cfg.repls w.val)

/-- The measure is bounded by the queue length plus three writes per
replica. -/
theorem mu_le (cfg : Config) : mu cfg ≤ cfg.q.length + 3 * cfg.repls.length := by
  unfold mu
  have h := Nat.mul_le_mul_left cfg.repls.length (accCost_le_three cfg)
  omega

/-- Each delivery on a nonempty queue strictly decreases the measure. -/
theorem mu_logStep_lt {cfg : Config} (hinv : Inv cfg) (k : Nat)
    (hne : cfg.q.isEmpty = false) : mu (logStep cfg k) < mu cfg := by
  obtain ⟨hnd, hwok, hprog⟩ := hinv
  unfold logStep
  rw [if_neg (by simp [hne])]
  have hlen : 0 < cfg.q.length := by
    cases hcase : cfg.q with
    | nil => rw [hcase] at hne; simp at hne
    | cons a l => simp
  have hilt : k % cfg.q.length < cfg.q.length := Nat.mod_lt _ hlen
  have hwmem : cfg.q.getD (k % cfg.q.length) default ∈ cfg.q := getD_mem hilt
  have hrest : (cfg.q.eraseIdx (k % cfg.q.length)).length = cfg.q.length - 1 := by
    rw [List.length_eraseIdx]
    simp [hilt]
  by_cases hbv : (cfg.q.getD (k % cfg.q.length) default).bv = cfg.ver
  · rw [if_pos hbv]
    have hvcA : vcost cfg.repls (cfg.q.getD (k % cfg.q.length) default).val ≤ accCost cfg := by
      unfold accCost
      refine le_foldr_max _ (fun w => vcost cfg.repls w.val) _ ?_
      rw [List.mem_filter]
      exact ⟨hwmem, decide_eq_true hbv⟩
    have hvc1 : 1 ≤ vcost cfg.repls (cfg.q.getD (k % cfg.q.length) default).val :=
      vcost_pos _ _
    have hreact : (react cfg.repls (cfg.ver + 1)
        (applyVal (cfg.q.getD (k % cfg.q.length) default).val)).length ≤
        cfg.repls.length := react_length_le _ _ _
    have haC : accCost ⟨cfg.repls,
        applyVal (cfg.q.getD (k % cfg.q.length) default).val, cfg.ver + 1,
        cfg.q.eraseIdx (k % cfg.q.length) ++ react cfg.repls (cfg.ver + 1)
          (applyVal (cfg.q.getD (k % cfg.q.length) default).val)⟩ ≤
        vcost cfg.repls (cfg.q.getD (k % cfg.q.length) default).val - 1 := by
      unfold accCost
      refine foldr_max_le _ (fun w => vcost cfg.repls w.val) _ ?_
      intro w2 hw2
      have hw2f : w2 ∈ (cfg.q.eraseIdx (k % cfg.q.length) ++ react cfg.repls (cfg.ver + 1)
          (applyVal (cfg.q.getD (k % cfg.q.length) default).val)).filter
          (fun w => decide (w.bv = cfg.ver + 1)) := hw2
      rw [List.mem_filter] at hw2f
      obtain ⟨hw2m, hw2v⟩ := hw2f
      have hw2v2 : w2.bv = cfg.ver + 1 := of_decide_eq_true hw2v
      show vcost cfg.repls w2.val ≤
        vcost cfg.repls (cfg.q.getD (k % cfg.q.length) default).val - 1
      rcases List.mem_append.mp hw2m with hw2m | hw2m
      · exfalso
        have := (hwok w2 (mem_of_mem_eraseIdx hw2m)).1
        omega
      · have hchar := react_mem_char hw2m
        rcases hchar.2 with ⟨hnone, c2, hv2, hq2⟩ | ⟨r, hr, ha, hint, hwr, hval2, hv⟩
        · rw [hnone]
          cases hval : (cfg.q.getD (k % cfg.q.length) default).val with
          | none =>
            rw [hval] at hv2
            simp [applyVal] at hv2
          | some c3 =>
            rw [hval] at hv2
            have hc3 : c3 = c2 := by
              simpa [applyVal] using hv2
            have h1 : vcost cfg.repls (some c3) = 3 := by
              show (if inQuorum cfg.repls c3 = true then 1 else 3) = 3
              rw [if_neg (by rw [hc3]; simp [hq2])]
            rw [h1]
            show (2 : Nat) ≤ 3 - 1
            omega
        · rw [hval2]
          have hnone2 : (cfg.q.getD (k % cfg.q.length) default).val = none := by
            cases hval : (cfg.q.getD (k % cfg.q.length) default).val with
            | none => rfl
            | some c3 =>
              rw [hval] at hv
              simp [applyVal] at hv
          rw [hnone2]
          have hq3 : inQuorum cfg.repls r.rid = true :=
            (inQuorum_iff _ _).mpr ⟨r, hr, rfl, ha⟩
          have hvcw : vcost cfg.repls (some r.rid) = 1 := by
            show (if inQuorum cfg.repls r.rid = true then 1 else 3) = 1
            rw [if_pos hq3]
          rw [hvcw]
          show (1 : Nat) ≤ 2 - 1
          omega
    show cfg.repls.length * accCost ⟨cfg.repls,
        applyVal (cfg.q.getD (k % cfg.q.length) default).val, cfg.ver + 1,
        cfg.q.eraseIdx (k % cfg.q.length) ++ react cfg.repls (cfg.ver + 1)
          (applyVal (cfg.q.getD (k % cfg.q.length) default).val)⟩ +
      (cfg.q.eraseIdx (k % cfg.q.length) ++ react cfg.repls (cfg.ver + 1)
        (applyVal (cfg.q.getD (k % cfg.q.length) default).val)).length <
      cfg.repls.length * accCost cfg + cfg.q.length
    have hq2len : (cfg.q.eraseIdx (k % cfg.q.length) ++ react cfg.repls (cfg.ver + 1)
        (applyVal (cfg.q.getD (k % cfg.q.length) default).val)).length =
        (cfg.q.eraseIdx (k % cfg.q.length)).length + (react cfg.repls (cfg.ver + 1)
        (applyVal (cfg.q.getD (k % cfg.q.length) default).val)).length :=
      List.length_append _ _
    have hmul : cfg.repls.length * accCost ⟨cfg.repls,
        applyVal (cfg.q.getD (k % cfg.q.length) default).val, cfg.ver + 1,
        cfg.q.eraseIdx (k % cfg.q.length) ++ react cfg.repls (cfg.ver + 1)
          (applyVal (cfg.q.getD (k % cfg.q.length) default).val)⟩ ≤
        cfg.repls.length * (vcost cfg.repls
          (cfg.q.getD (k % cfg.q.length) default).val - 1) :=
      Nat.mul_le_mul_left _ haC
    have hmul2 : cfg.repls.length * accCost cfg ≥ cfg.repls.length * vcost cfg.repls
        (cfg.q.getD (k % cfg.q.length) default).val :=
      Nat.mul_le_mul_left _ hvcA
    have hdist : cfg.repls.length * (vcost cfg.repls
        (cfg.q.getD (k % cfg.q.length) default).val - 1) + cfg.repls.length =
        cfg.repls.length * vcost cfg.repls
          (cfg.q.getD (k % cfg.q.length) default).val := by
      have h3 : vcost cfg.repls (cfg.q.getD (k % cfg.q.length) default).val - 1 + 1 =
          vcost cfg.repls (cfg.q.getD (k % cfg.q.length) default).val := by omega
      calc cfg.repls.length * (vcost cfg.repls
            (cfg.q.getD (k % cfg.q.length) default).val - 1) + cfg.repls.length
          = cfg.repls.length * ((vcost cfg.repls
            (cfg.q.getD (k % cfg.q.length) default).val - 1) + 1) := by ring
        _ = cfg.repls.length * vcost cfg.repls
            (cfg.q.getD (k % cfg.q.length) default).val := by rw [h3]
    omega
  · rw [if_neg hbv]
    show cfg.repls.length * accCost ⟨cfg.repls, cfg.reg, cfg.ver,
        cfg.q.eraseIdx (k % cfg.q.length)⟩ +
      (cfg.q.eraseIdx (k % cfg.q.length)).length <
      cfg.repls.length * accCost cfg + cfg.q.length
    have haC : accCost ⟨cfg.repls, cfg.reg, cfg.ver,
        cfg.q.eraseIdx (k % cfg.q.length)⟩ ≤ accCost cfg := by
      unfold accCost
      refine foldr_max_le _ (fun w => vcost cfg.repls w.val) _ ?_
      intro w2 hw2
      have hw2f : w2 ∈ (cfg.q.eraseIdx (k % cfg.q.length)).filter
          (fun w => decide (w.bv = cfg.ver)) := hw2
      rw [List.mem_filter] at hw2f
      refine le_foldr_max _ (fun w => vcost cfg.repls w.val) _ ?_
      rw [List.mem_filter]
      exact ⟨mem_of_mem_eraseIdx hw2f.1, hw2f.2⟩
    have hmul : cfg.repls.length * accCost ⟨cfg.repls, cfg.reg, cfg.ver,
        cfg.q.eraseIdx (k % cfg.q.length)⟩ ≤ cfg.repls.length * accCost cfg :=
      Nat.mul_le_mul_left _ haC
    omega

/-- The delivery phase: fold the log scheduler over the queue. -/
def drain (cfg : Config) (ks : List Nat) : Config := ks.foldl logStep cfg

/-- Draining an empty queue does nothing. -/
theorem drain_empty {cfg : Config} (h : cfg.q = []) (ks : List Nat) :
    drain cfg ks = cfg := by
  induction ks with
  | nil => rfl
  | cons k ks ih =>
    have hstep : logStep cfg k = cfg := by
      unfold logStep
      rw [if_pos (by simp [h])]
    show drain (logStep cfg k) ks = cfg
    rw [hstep]
    exact ih

/-- Draining preserves the invariant. -/
theorem drain_inv {cfg : Config} (hinv : Inv cfg) (ks : List Nat) :
    Inv (drain cfg ks) := by
  induction ks generalizing cfg with
  | nil => exact hinv
  | cons k ks ih => exact ih (logStep_inv hinv k)

/-- A schedule at least as long as the measure empties the queue. -/
theorem drain_q_empty {cfg : Config} (hinv : Inv cfg) (ks : List Nat)
    (hlen : mu cfg ≤ ks.length) : (drain cfg ks).q = [] := by
  induction ks generalizing cfg with
  | nil =>
    have hq : cfg.q.length = 0 := by
      unfold mu at hlen
      simp only [List.length_nil] at hlen
      omega
    exact List.length_eq_zero.mp hq
  | cons k ks ih =>
    by_cases hq : cfg.q.isEmpty = true
    · have hqe : cfg.q = [] := by simpa [List.isEmpty_iff] using hq
      show (drain (logStep cfg k) ks).q = []
      have hstep : logStep cfg k = cfg := by
        unfold logStep
        rw [if_pos hq]
      rw [hstep, drain_empty hqe ks]
      exact hqe
    · have hne : cfg.q.isEmpty = false := by
        simp only [Bool.not_eq_true] at hq
        exact hq
      have hlt := mu_logStep_lt ⟨hinv.1, hinv.2.1, hinv.2.2⟩ k hne
      refine ih (logStep_inv hinv k) ?_
      simp only [List.length_cons] at hlen
      omega

/-- Terminal analysis: with the invariant and an empty queue, an interested
active replica exists only if the register is owned by one, and with no such
replica but some active replica the register is unclaimed or absent. -/
theorem terminal_good {cfg : Config} (hinv : Inv cfg) (hq : cfg.q = []) :
    (hasIA cfg → ∃ r ∈ cfg.repls, r.active = true ∧ r.interested = true ∧
      cfg.reg = .owned r.rid) ∧
    (¬ hasIA cfg → hasA cfg → (cfg.reg = .unclaimed ∨ cfg.reg = .absent)) := by
  obtain ⟨hnd, hwok, hprog⟩ := hinv
  have hnacc : ¬ Acc cfg := by
    rintro ⟨w, hw, _⟩
    rw [hq] at hw
    simp at hw
  constructor
  · intro hia
    match hreg : cfg.reg with
    | .absent =>
      exfalso
      unfold Prog at hprog
      rw [hreg] at hprog
      exact hnacc (hprog hia)
    | .unclaimed =>
      exfalso
      unfold Prog at hprog
      rw [hreg] at hprog
      exact hnacc (hprog hia)
    | .owned c =>
      have hp2 : (ownerInterested cfg.repls c ∨ Acc cfg) ∧
          (inQuorum cfg.repls c = false → hasA cfg → Acc cfg) := by
        unfold Prog at hprog
        rw [hreg] at hprog
        exact hprog
      have hoi : ownerInterested cfg.repls c := by
        rcases hp2.1 with h | h
        · exact h
        · exact absurd h hnacc
      by_cases hqc : inQuorum cfg.repls c = true
      · obtain ⟨r, hr, hric, hra⟩ := (inQuorum_iff _ _).mp hqc
        exact ⟨r, hr, hra, hoi r hr hric, by rw [hric]⟩
      · exfalso
        obtain ⟨r, hr, hra, _⟩ := hia
        exact hnacc (hp2.2 (by simpa using hqc) ⟨r, hr, hra⟩)
  · intro hnia hA
    match hreg : cfg.reg with
    | .unclaimed => exact Or.inl rfl
    | .absent => exact Or.inr rfl
    | .owned c =>
      exfalso
      have hp2 : (ownerInterested cfg.repls c ∨ Acc cfg) ∧
          (inQuorum cfg.repls c = false → hasA cfg → Acc cfg) := by
        unfold Prog at hprog
        rw [hreg] at hprog
        exact hprog
      have hoi : ownerInterested cfg.repls c := by
        rcases hp2.1 with h | h
        · exact h
        · exact absurd h hnacc
      by_cases hqc : inQuorum cfg.repls c = true
      · obtain ⟨r, hr, hric, hra⟩ := (inQuorum_iff _ _).mp hqc
        exact hnia ⟨r, hr, hra, hoi r hr hric⟩
      · exact hnacc (hp2.2 (by simpa using hqc) hA)

/-- C1: After any finite sequence of membership and register events
(connect with its `initialize` reconciliation scan, disconnect with its
`removeMember`-driven cleanup, pick, release) on replicas with distinct
clientIds, a quiescent delivery period bounded by the pending-write backlog
plus three dependent log round-trips per replica flushes the write queue,
and the resulting configuration has converged: if any active replica is
still interested in the task, the consensus register names as the single
owner a replica that is itself active and interested (the same owner as
read by every replica, the register being a single consensus value), and
if no active replica is interested while some replica is active, the entry
has been cleared to unclaimed or was never claimed. -/
theorem scheduler_task_convergence (rids : List Nat) (hnd : rids.Nodup)
    (as : List Act) (ks : List Nat)
    (hks : (runA (startCfg rids) as).q.length +
      3 * (runA (startCfg rids) as).repls.length ≤ ks.length) :
    (drain (runA (startCfg rids) as) ks).q = [] ∧
    (hasIA (drain (runA (startCfg rids) as) ks) →
      ∃ r ∈ (drain (runA (startCfg rids) as) ks).repls, r.active = true ∧
        r.interested = true ∧
        (drain (runA (startCfg rids) as) ks).reg = .owned r.rid) ∧
    (¬ hasIA (drain (runA (startCfg rids) as) ks) →
      hasA (drain (runA (startCfg rids) as) ks) →
      ((drain (runA (startCfg rids) as) ks).reg = .unclaimed ∨
        (drain (runA (startCfg rids) as) ks).reg = .absent)) := by
  have hinv : Inv (runA (startCfg rids) as) := runA_inv (startCfg_inv rids hnd) as
  have hmu : mu (runA (startCfg rids) as) ≤ ks.length := by
    refine le_trans (mu_le _) ?_
    omega
  have hq : (drain (runA (startCfg rids) as) ks).q = [] := drain_q_empty hinv ks hmu
  have hterm := terminal_good (drain_inv hinv ks) hq
  exact ⟨hq, hterm.1, hterm.2⟩

/-- Concrete run of the convergence theorem: two replicas connect, the
first picks the task, and eight deliveries settle the claim. -/
theorem scheduler_task_convergence_witness :
    ([0, 1] : List Nat).Nodup ∧
    (runA (startCfg [0, 1]) [Act.connect 0, Act.connect 1, Act.pickTask 0]).q.length +
      3 * (runA (startCfg [0, 1])
        [Act.connect 0, Act.connect 1, Act.pickTask 0]).repls.length ≤
      (List.replicate 8 0).length ∧
    (drain (runA (startCfg [0, 1]) [Act.connect 0, Act.connect 1, Act.pickTask 0])
      (List.replicate 8 0)).q = [] :=
  ⟨by decide, by decide,
    (scheduler_task_convergence [0, 1] (by decide)
      [Act.connect 0, Act.connect 1, Act.pickTask 0]
      (List.replicate 8 0) (by decide)).1⟩

end Conv
